import Mathlib

/-!
Verification of the mysis single-agent orchestrator core against its
natural-language specification.

The development shallowly embeds the Go sources:
  * `internal/store/compression.go` — history compression
    (`CompressHistory`, `isAuthTool`, `isStateQueryTool`,
    `findToolNameForResult`),
  * `internal/llm/turn.go` — the turn engine (`ProcessTurn`,
    `executeToolCalls`, `extractTextFromContent`),
  * `internal/features/autoplay.go` — the autoplay supervising loop
    (`runLoop`, `maxConsecutiveErrors`).

Data structures (`provider.Message`, `provider.ToolCall`,
`provider.ChatResponse`, `mcp.ContentBlock`, `mcp.ToolResult`) are declared
in provider/mcp files whose struct declarations are not part of the sources
at hand; their fields are reconstructed from every use site in the present
code (compression.go, the turn engine, the provider tests) and from the
spec's data-model section, which lists exactly the same fields.

Modelling conventions:
  * Go strings are Lean `String`s; Go `len(s)` (bytes) and `s[:n]` (byte
    slicing) are modelled as character counts `s.data.length` and character
    prefixes `s.data.take n`.  All strings the claims depend on are ASCII,
    where the two notions coincide.
  * `time.Time` timestamps are opaque `Nat` values.
  * `json.RawMessage` argument payloads are opaque `String`s.
  * Logging and terminal display calls are pure output and are omitted.
-/

namespace Mysis

/-- provider.ToolCall: id (assigned by the model), tool name, raw argument
payload. -/
structure ToolCall where
  id : String
  name : String
  arguments : String
  deriving Repr, DecidableEq

/-- provider.Message: one conversation message.  `toolCalls` is only
populated on assistant messages, `toolCallID` only on tool-result
messages. -/
structure Message where
  role : String
  content : String
  toolCalls : List ToolCall := []
  toolCallID : String := ""
  reasoning : String := ""
  createdAt : Nat := 0
  deriving Repr, DecidableEq

/-- provider.ChatResponse: what ChatWithTools returns. -/
structure ChatResponse where
  content : String
  reasoning : String := ""
  toolCalls : List ToolCall := []
  deriving Repr, DecidableEq

/-- mcp.ContentBlock: one tagged content block of a tool result. -/
structure ContentBlock where
  type : String
  text : String
  deriving Repr, DecidableEq

/-- mcp.ToolResult: ordered content blocks plus an is-error flag. -/
structure ToolResult where
  content : List ContentBlock
  isError : Bool
  deriving Repr, DecidableEq

/-! ## History compression (internal/store/compression.go) -/

/-- compression.go: `compressedToolResult`, the fixed marker substituted for
compressed state-query results. -/
def compressedToolResult : String := "[compressed - old state data]"

/-- Go `strings.ToLower`, modelled character-wise (the tool names at issue
are ASCII, where the two agree). -/
def toLowerStr (s : String) : String := String.mk (s.data.map Char.toLower)

/-- compression.go `isStateQueryTool`: the tool name, lower-cased, is one of
the state-query tools. -/
def isStateQueryTool (toolName : String) : Bool :=
  ["get_status", "get_ship", "get_system", "get_sector", "get_galaxy",
   "get_map", "get_players", "get_leaderboard", "get_market", "get_cargo",
   "captains_log_list"].any (fun st => toLowerStr toolName = st)

/-- compression.go `isAuthTool`: the tool name, lower-cased, is one of the
authentication tools (never compressed). -/
def isAuthTool (toolName : String) : Bool :=
  ["login", "register", "logout"].any (fun at_ => toLowerStr toolName = at_)

/-- compression.go `findToolNameForResult`, inner backward scan: walk the
messages preceding a tool result (nearest first) for an assistant message
whose tool-call list contains the matching id, and return that call's
name; `""` when none matches. -/
def findToolName (before : List Message) (toolCallID : String) : String :=
  match before with
  | [] => ""
  | m :: rest =>
    if m.role = "assistant" ∧ m.toolCalls.length > 0 then
      match m.toolCalls.find? (fun tc => tc.id = toolCallID) with
      | some tc => tc.name
      | none => findToolName rest toolCallID
    else findToolName rest toolCallID

/-- compression.go `findToolNameForResult (messages, resultIndex)`: guard on
the index and role, then scan backwards from `resultIndex - 1`. -/
def findToolNameForResult (messages : List Message) (resultIndex : Nat) : String :=
  match messages[resultIndex]? with
  | none => ""
  | some m =>
    if m.role = "tool" then findToolName (messages.take resultIndex).reverse m.toolCallID
    else ""

/-- compression.go, lines 139-141: action-class results longer than 500 are
cut to a 200-character head plus the literal truncation marker
(Go: `msg.Content[:200] + "... [truncated]"`). -/
def truncateAction (s : String) : String :=
  String.mk (s.data.take 200 ++ "... [truncated]".data)

/-- compression.go, lines 120-146: the transformation applied to one
tool-role message before the cutoff, given the resolved tool name:
auth tools are kept, state-query tools get the fixed marker, action
results over 500 characters are truncated. -/
def classifyTransform (toolName : String) (msg : Message) : Message :=
  if isAuthTool toolName then msg
  else if isStateQueryTool toolName then { msg with content := compressedToolResult }
  else if msg.content.length > 500 then { msg with content := truncateAction msg.content }
  else msg

/-- compression.go, second pass (lines 110-147): walk the messages before
the cutoff, keeping user/assistant messages, transforming tool messages
(resolving their tool through the accumulated reversed prefix `seen` of
original preceding messages), and dropping any other role.  `seen` is the
reverse of the original messages already walked, so the backward scan of
`findToolNameForResult` is `findToolName seen`. -/
def compressOlder (seen : List Message) : List Message → List Message
  | [] => []
  | msg :: rest =>
    if msg.role = "user" ∨ msg.role = "assistant" then
      msg :: compressOlder (msg :: seen) rest
    else if msg.role = "tool" then
      classifyTransform (findToolName seen msg.toolCallID) msg ::
        compressOlder (msg :: seen) rest
    else
      compressOlder (msg :: seen) rest

/-- compression.go, lines 74-79: count the turns, i.e. the user-role
messages (the code walks from the end; the count is the same). -/
def countTurns (messages : List Message) : Nat :=
  messages.countP (fun m => m.role = "user")

/-- compression.go, lines 88-100, inner step: walking indices from `n - 1`
down to 0 with `cur` users already counted, return the first index whose
message is user-role and brings the count to `keep`. -/
def findCutoffGo (messages : List Message) (keep : Nat) : Nat → Nat → Option Nat
  | 0, _ => none
  | n + 1, cur =>
    match messages[n]? with
    | some m =>
      if m.role = "user" then
        if cur + 1 = keep then some n
        else findCutoffGo messages keep n (cur + 1)
      else findCutoffGo messages keep n cur
    | none => findCutoffGo messages keep n cur

/-- compression.go, lines 88-100: the cutoff index — walking from the end,
the index of the user message that begins the `keep`-th-from-last turn
(`none` models the loop leaving `cutoffIndex` at -1). -/
def findCutoff (messages : List Message) (keep : Nat) : Option Nat :=
  findCutoffGo messages keep messages.length 0

/-- compression.go `CompressHistory`: identity on empty input, on input with
at most `keepFullTurns` turns, and when no cutoff is found or the cutoff is
index 0; otherwise the compressed prefix followed by the verbatim suffix
from the cutoff on. -/
def CompressHistory (messages : List Message) (keepFullTurns : Nat) : List Message :=
  if messages = [] then messages
  else if countTurns messages ≤ keepFullTurns then messages
  else
    match findCutoff messages keepFullTurns with
    | none => messages
    | some cutoff =>
      if cutoff = 0 then messages
      else compressOlder [] (messages.take cutoff) ++ messages.drop cutoff

/-! ## Turn engine (ProcessTurn / executeToolCalls)

The provider (ModelBackend.ChatWithTools) is modelled as a function from
the compressed history it is shown to either a transport error or a
`ChatResponse`; the tool-definition list the code also passes is constant
through a turn and absorbed into that function.  The MCP proxy
(`proxy.CallTool`) is a function from tool name and raw arguments to either
a Go error or a `ToolResult`.  `time.Now()` is an opaque timestamp `now`,
and the `OnMessage`/`OnToolCall` display callbacks as well as terminal
output are omitted: the claims are about the history the engine
accumulates, which is recorded in full. -/

/-- The model backend: compressed history to error or response. -/
def ProviderFun := List Message → Except String ChatResponse

/-- The MCP proxy: tool name and arguments to error or result. -/
def ProxyFun := String → String → Except String ToolResult

/-- turn engine `extractTextFromContent`: concatenate the text of all
"text"-typed content blocks. -/
def extractTextFromContent (content : List ContentBlock) : String :=
  content.foldl (fun acc b => if b.type = "text" then acc ++ b.text else acc) ""

/-- turn engine `executeToolCalls`, body of the loop for one call: a
transport error becomes a tool message with explanatory "Error: …" content,
an is_error or successful result a tool message carrying the extracted
text; the tool_call_id is always the call's id. -/
def buildToolMessage (proxy : ProxyFun) (tc : ToolCall) (now : Nat) : Message :=
  match proxy tc.name tc.arguments with
  | .error e =>
    { role := "tool", content := "Error: " ++ e, toolCallID := tc.id, createdAt := now }
  | .ok result =>
    if result.isError then
      { role := "tool", content := extractTextFromContent result.content,
        toolCallID := tc.id, createdAt := now }
    else
      { role := "tool", content := extractTextFromContent result.content,
        toolCallID := tc.id, createdAt := now }

/-- turn engine `executeToolCalls`: execute every call in the given order,
producing one tool-role message per call (the Go function's error return is
always nil, so the result is total). -/
def executeToolCalls (proxy : ProxyFun) (toolCalls : List ToolCall) (now : Nat) :
    List Message :=
  toolCalls.map (fun tc => buildToolMessage proxy tc now)

/-- The assistant message appended when the response has no tool calls
(ProcessTurn, lines 92-97). -/
def assistantFinal (resp : ChatResponse) (now : Nat) : Message :=
  { role := "assistant", content := resp.content, reasoning := resp.reasoning,
    createdAt := now }

/-- The assistant message appended when the response carries tool calls
(ProcessTurn, lines 105-111). -/
def assistantWithCalls (resp : ChatResponse) (now : Nat) : Message :=
  { role := "assistant", content := resp.content, reasoning := resp.reasoning,
    toolCalls := resp.toolCalls, createdAt := now }

/-- How a turn ends: final answer, LLM call failure (`LLM call failed: …`),
or the round budget exceeded (`too many tool call rounds`). -/
inductive TurnOutcome where
  | success
  | llmError (e : String)
  | roundLimit
  deriving Repr, DecidableEq

/-- The turn engine's observable behaviour: for each executed round, the
working history at the round's start (the value handed to the compressor)
and the compressed history handed to the model; the outcome; and the final
working history. -/
structure TurnTrace where
  rounds : List (List Message × List Message)
  outcome : TurnOutcome
  finalHistory : List Message
  deriving Repr, DecidableEq

/-- ProcessTurn's round loop (lines 46-131), with the remaining round
budget as fuel: compress the working history, call the model on the
compressed copy, and either finish (no tool calls), abort (model error), or
append the assistant message and one tool result per call to the same
working history and loop. -/
def processRounds (prov : ProviderFun) (proxy : ProxyFun)
    (keepLast now : Nat) : Nat → List Message → TurnTrace
  | 0, history => { rounds := [], outcome := .roundLimit, finalHistory := history }
  | fuel + 1, history =>
    let compressed := CompressHistory history keepLast
    match prov compressed with
    | .error e =>
      { rounds := [(history, compressed)], outcome := .llmError e,
        finalHistory := history }
    | .ok resp =>
      if resp.toolCalls = [] then
        { rounds := [(history, compressed)], outcome := .success,
          finalHistory := history ++ [assistantFinal resp now] }
      else
        let next := processRounds prov proxy keepLast now fuel
          (history ++ assistantWithCalls resp now ::
            executeToolCalls proxy resp.toolCalls now)
        { rounds := (history, compressed) :: next.rounds, outcome := next.outcome,
          finalHistory := next.finalHistory }

/-- turn engine `ProcessTurn`: apply the defaults (MaxToolRounds 20,
HistoryKeepLast 10 when the zero value is passed) and run the round
loop on the caller's history snapshot. -/
def ProcessTurn (prov : ProviderFun) (proxy : ProxyFun)
    (maxToolRounds historyKeepLast now : Nat) (history : List Message) : TurnTrace :=
  processRounds prov proxy
    (if historyKeepLast = 0 then 10 else historyKeepLast) now
    (if maxToolRounds = 0 then 20 else maxToolRounds) history

/-! ## Autoplay supervising loop (internal/features/autoplay.go)

`runLoop` is driven by the outcomes of its `sendMessage` calls (the turn
callback): `true` is a successful turn, `false` a failed one.  The list of
outcomes is the (finite prefix of the) sequence the callback would produce;
cancellation through `Stop()` and the ticker's real-time waiting are not
modelled.  When the loop returns, the deferred cleanup transitions the
service to Idle (`enabled = false`) and fires `OnStopped`; that cleanup is
represented by any exit other than `running`. -/

/-- autoplay.go `maxConsecutiveErrors`: circuit-breaker threshold. -/
def maxConsecutiveErrors : Nat := 3

/-- How the supervising loop left off: still issuing ticks with the given
consecutive-error counter, stopped by the failure of the first immediate
message, or stopped by the circuit breaker. -/
inductive LoopExit where
  | running (counter : Nat)
  | firstFailureStop
  | breaker
  deriving Repr, DecidableEq

/-- What a run of the supervising loop did: how many turn-callback
invocations it made, how many `OnError` callbacks it fired, and how it left
off. -/
structure LoopResult where
  invocations : Nat
  errors : Nat
  exit : LoopExit
  deriving Repr, DecidableEq

/-- autoplay.go `runLoop`, ticker phase (lines 197-240): on a failed turn
increment the consecutive-error counter and fire `OnError`, returning when
the counter reaches `maxConsecutiveErrors`; on a successful turn reset the
counter and keep ticking. -/
def tickPhase (counter : Nat) : List Bool → LoopResult
  | [] => { invocations := 0, errors := 0, exit := .running counter }
  | ok :: rest =>
    if ok then
      let r := tickPhase 0 rest
      { invocations := r.invocations + 1, errors := r.errors, exit := r.exit }
    else if counter + 1 ≥ maxConsecutiveErrors then
      { invocations := 1, errors := 1, exit := .breaker }
    else
      let r := tickPhase (counter + 1) rest
      { invocations := r.invocations + 1, errors := r.errors + 1, exit := r.exit }

/-- autoplay.go `runLoop` (lines 142-241): send the first message
immediately — on failure increment the counter, fire `OnError`, and return
(lines 162-179: the `return` is unconditional, so a single first-message
failure already ends the loop) — then enter the ticker phase with the
counter reset to 0. -/
def runLoop (outcomes : List Bool) : LoopResult :=
  match outcomes with
  | [] => { invocations := 0, errors := 0, exit := .running 0 }
  | first :: rest =>
    if first then
      let r := tickPhase 0 rest
      { invocations := r.invocations + 1, errors := r.errors, exit := r.exit }
    else if 0 + 1 ≥ maxConsecutiveErrors then
      { invocations := 1, errors := 1, exit := .breaker }
    else
      { invocations := 1, errors := 1, exit := .firstFailureStop }

/-- Spec-level predicate for the circuit breaker: the outcome sequence
contains three consecutive failures. -/
def hasTripleFail (l : List Bool) : Bool :=
  l.tails.any (fun w => w.take 3 = [false, false, false])

/-! ## The no-orphans invariant (spec §3 and §8) -/

/-- Some message among the given earlier messages is an assistant message
whose tool-call list contains the given tool_call_id. -/
def hasMatchingCall (earlier : List Message) (toolCallID : String) : Bool :=
  earlier.any (fun m =>
    m.role = "assistant" && m.toolCalls.any (fun tc => tc.id = toolCallID))

/-- Walk a message sequence with the reversed already-seen prefix, checking
that every tool-role message's tool_call_id matches a ToolCall of some
earlier assistant message. -/
def noOrphansFrom (seen : List Message) : List Message → Bool
  | [] => true
  | m :: rest =>
    (if m.role = "tool" then hasMatchingCall seen m.toolCallID else true) &&
      noOrphansFrom (m :: seen) rest

/-- Spec §8 "No orphans": every tool-role message's tool_call_id matches a
ToolCall id from a preceding assistant message of the same sequence. -/
def noOrphans (messages : List Message) : Bool :=
  noOrphansFrom [] messages

end Mysis

namespace Mysis

/-- A tiny concrete 3-turn history used by several witnesses: turn 1 calls
get_status, turns 2 and 3 are plain exchanges. -/
def exStatusMsg : Message :=
  { role := "tool", content := "STATUS: ship at (3,4), fuel 92", toolCallID := "1" }

def exHistory : List Message :=
  [{ role := "user", content := "turn1" },
   { role := "assistant", content := "checking",
     toolCalls := [{ id := "1", name := "get_status", arguments := "{}" }] },
   exStatusMsg,
   { role := "assistant", content := "done1" },
   { role := "user", content := "turn2" },
   { role := "assistant", content := "done2" },
   { role := "user", content := "turn3" },
   { role := "assistant", content := "done3" }]

/-- Scenario A's expected output: `exHistory` with the old get_status
result replaced by the compression marker. -/
def exHistoryCompressed : List Message :=
  [{ role := "user", content := "turn1" },
   { role := "assistant", content := "checking",
     toolCalls := [{ id := "1", name := "get_status", arguments := "{}" }] },
   { role := "tool", content := compressedToolResult, toolCallID := "1" },
   { role := "assistant", content := "done1" },
   { role := "user", content := "turn2" },
   { role := "assistant", content := "done2" },
   { role := "user", content := "turn3" },
   { role := "assistant", content := "done3" }]


/-- Per-index description of CompressHistory: what the message at input
index `i` becomes in the output (`none` when it is dropped).  Mirrors the
branch structure of `CompressHistory` and its second pass. -/
def contributionAt (m : List Message) (keep : Nat) (i : Nat) : Option Message :=
  match m[i]? with
  | none => none
  | some msg =>
    if countTurns m ≤ keep then some msg
    else
      match findCutoff m keep with
      | none => some msg
      | some cutoff =>
        if cutoff = 0 then some msg
        else if cutoff ≤ i then some msg
        else if msg.role = "user" ∨ msg.role = "assistant" then some msg
        else if msg.role = "tool" then
          some (classifyTransform (findToolNameForResult m i) msg)
        else none

/-- The output position that input index `i` occupies in
`CompressHistory m keep` (meaningful when the message survives). -/
def compressedIndex (m : List Message) (keep : Nat) (i : Nat) : Nat :=
  if countTurns m ≤ keep then i
  else
    match findCutoff m keep with
    | none => i
    | some cutoff =>
      if cutoff = 0 then i
      else if cutoff ≤ i then (compressOlder [] (m.take cutoff)).length + (i - cutoff)
      else (compressOlder [] (m.take i)).length


/-- The auth tool result of `exAuthHistory` (index 2). -/
def exAuthMsg : Message :=
  { role := "tool", content := "Logged in as capt-mysis, session granted",
    toolCallID := "1" }

/-- A 3-turn history whose first turn holds a login tool result. -/
def exAuthHistory : List Message :=
  [{ role := "user", content := "turn1" },
   { role := "assistant", content := "logging in",
     toolCalls := [{ id := "1", name := "login", arguments := "{}" }] },
   exAuthMsg,
   { role := "assistant", content := "done1" },
   { role := "user", content := "turn2" },
   { role := "assistant", content := "done2" },
   { role := "user", content := "turn3" },
   { role := "assistant", content := "done3" }]

/-- A history holding a system message before the cutoff: CompressHistory
drops it, shrinking the sequence. -/
def exSysHistory : List Message :=
  [{ role := "system", content := "stay factual" },
   { role := "user", content := "one" },
   { role := "user", content := "two" }]

/-- Concrete tool call, responses, provider and proxy used by witnesses. -/
def wToolCall : ToolCall := { id := "c1", name := "mine", arguments := "{}" }

def wRespTools : ChatResponse := { content := "", toolCalls := [wToolCall] }

def wRespFinal : ChatResponse := { content := "done" }

def wProvAlways : ProviderFun := fun _ => .ok wRespTools

def wProvFinal : ProviderFun := fun _ => .ok wRespFinal

def wProxyOk : ProxyFun :=
  fun _ _ => .ok { content := [{ type := "text", text := "ok" }], isError := false }

def wUserMsg : Message := { role := "user", content := "go" }

/-- The mixed proxy used by the C8 witness: transport failure for `mine`,
is_error result for `scan`, success otherwise. -/
def wProxyMixed : ProxyFun := fun name _ =>
  if name = "mine" then .error "connection refused"
  else if name = "scan" then
    .ok { content := [{ type := "text", text := "scan failed: no fuel" }], isError := true }
  else .ok { content := [{ type := "text", text := "docked" }], isError := false }

/-- Three tool calls, the first two failing in the two distinct ways. -/
def wCalls : List ToolCall :=
  [{ id := "a", name := "mine", arguments := "{}" },
   { id := "b", name := "scan", arguments := "{}" },
   { id := "c", name := "dock", arguments := "{}" }]

/-- A provider that calls `mine` on the first round and answers on later
rounds (it sees a longer compressed history then). -/
def wProvOnce : ProviderFun :=
  fun h => if h.length ≤ 1 then .ok wRespTools else .ok wRespFinal

/-! # Basic facts about the compression pass -/

/-- Relation between the reversed already-walked prefix that a second
compression pass accumulates (left) and the one of the first pass (right):
identical messages, non-assistant messages whose content may differ, and
messages of other roles missing on the left.  `findToolName` cannot tell
the two apart. -/
inductive SeenSim : List Message → List Message → Prop where
  | nil : SeenSim [] []
  | same (m : Message) {s₁ s₂ : List Message} :
      SeenSim s₁ s₂ → SeenSim (m :: s₁) (m :: s₂)
  | repl (m₁ m₂ : Message) {s₁ s₂ : List Message} :
      m₁.role ≠ "assistant" → m₂.role ≠ "assistant" →
      SeenSim s₁ s₂ → SeenSim (m₁ :: s₁) (m₂ :: s₂)
  | dropped (m : Message) {s₁ s₂ : List Message} :
      m.role ≠ "assistant" → SeenSim s₁ s₂ → SeenSim s₁ (m :: s₂)

theorem compressHistory_of_count_le {m : List Message} {keep : Nat}
    (h : countTurns m ≤ keep) : CompressHistory m keep = m := by
  unfold CompressHistory
  by_cases hm : m = [] <;> simp [hm, h]

theorem compressHistory_of_cutoff_none {m : List Message} {keep : Nat}
    (h : findCutoff m keep = none) : CompressHistory m keep = m := by
  unfold CompressHistory
  by_cases hm : m = [] <;> by_cases hc : countTurns m ≤ keep <;> simp [hm, hc, h]

theorem compressHistory_of_cutoff_zero {m : List Message} {keep : Nat}
    (h : findCutoff m keep = some 0) : CompressHistory m keep = m := by
  unfold CompressHistory
  by_cases hm : m = [] <;> by_cases hc : countTurns m ≤ keep <;> simp [hm, hc, h]

theorem compressHistory_main {m : List Message} {keep cutoff : Nat}
    (hc : ¬ countTurns m ≤ keep) (hcut : findCutoff m keep = some cutoff)
    (hne : cutoff ≠ 0) :
    CompressHistory m keep =
      compressOlder [] (m.take cutoff) ++ m.drop cutoff := by
  have hm : m ≠ [] := by
    intro h; subst h
    simp [countTurns] at hc
  unfold CompressHistory
  simp [hm, hc, hcut, hne]

theorem countTurns_append (a b : List Message) :
    countTurns (a ++ b) = countTurns a + countTurns b := by
  simp [countTurns, List.countP_append]

theorem countTurns_user_cons {msg : Message} (h : msg.role = "user") (l : List Message) :
    countTurns (msg :: l) = countTurns l + 1 := by
  simp [countTurns, List.countP_cons, h]

theorem countTurns_other_cons {msg : Message} (h : ¬ msg.role = "user") (l : List Message) :
    countTurns (msg :: l) = countTurns l := by
  simp [countTurns, List.countP_cons, h]

theorem findCutoffGo_spec {m : List Message} {keep : Nat} :
    ∀ {n cur t : Nat}, findCutoffGo m keep n cur = some t →
      t < n ∧ ∃ msg, m[t]? = some msg ∧ msg.role = "user" ∧
        countTurns ((m.take n).drop t) + cur = keep := by
  intro n
  induction n with
  | zero => intro cur t h; simp [findCutoffGo] at h
  | succ n ih =>
    intro cur t h
    rw [findCutoffGo] at h
    cases hn : m[n]? with
    | none =>
      rw [hn] at h
      dsimp only at h
      obtain ⟨ht, msg, hmsg, hrole, hcount⟩ := ih h
      refine ⟨Nat.lt_succ_of_lt ht, msg, hmsg, hrole, ?_⟩
      rw [List.take_succ, hn]
      simpa using hcount
    | some mn =>
      rw [hn] at h
      dsimp only at h
      have hlt : n < m.length := by
        by_contra hge
        push_neg at hge
        rw [List.getElem?_eq_none hge] at hn
        exact Option.noConfusion hn
      have htk : (m.take n).length = n := by
        simp [List.length_take, Nat.le_of_lt hlt]
      by_cases hu : mn.role = "user"
      · rw [if_pos hu] at h
        by_cases heq : cur + 1 = keep
        · rw [if_pos heq] at h
          have ht : t = n := (Option.some.inj h).symm
          subst ht
          refine ⟨Nat.lt_succ_self _, mn, hn, hu, ?_⟩
          rw [List.take_succ, hn]
          rw [show (some mn).toList = [mn] from rfl]
          rw [List.drop_append_of_le_length (Nat.le_of_eq htk.symm)]
          rw [List.drop_eq_nil_of_le (Nat.le_of_eq htk)]
          rw [show ([] ++ [mn] : List Message) = [mn] from rfl,
            countTurns_user_cons hu]
          simp only [countTurns, List.countP_nil]
          omega
        · rw [if_neg heq] at h
          obtain ⟨ht, msg, hmsg, hrole, hcount⟩ := ih h
          refine ⟨Nat.lt_succ_of_lt ht, msg, hmsg, hrole, ?_⟩
          rw [List.take_succ, hn]
          have hdist : ((m.take n ++ (some mn).toList).drop t)
              = (m.take n).drop t ++ [mn] := by
            rw [show (some mn).toList = [mn] from rfl]
            exact List.drop_append_of_le_length (by omega)
          rw [hdist, countTurns_append]
          have h1 : countTurns [mn] = 1 := by simp [countTurns, hu]
          omega
      · rw [if_neg hu] at h
        obtain ⟨ht, msg, hmsg, hrole, hcount⟩ := ih h
        refine ⟨Nat.lt_succ_of_lt ht, msg, hmsg, hrole, ?_⟩
        rw [List.take_succ, hn]
        have hdist : ((m.take n ++ (some mn).toList).drop t)
            = (m.take n).drop t ++ [mn] := by
          rw [show (some mn).toList = [mn] from rfl]
          exact List.drop_append_of_le_length (by omega)
        rw [hdist, countTurns_append]
        have h1 : countTurns [mn] = 0 := by simp [countTurns, hu]
        omega

theorem findCutoff_spec {m : List Message} {keep t : Nat}
    (h : findCutoff m keep = some t) :
    t < m.length ∧ ∃ msg, m[t]? = some msg ∧ msg.role = "user" ∧
      countTurns (m.drop t) = keep := by
  obtain ⟨ht, msg, hmsg, hrole, hcount⟩ := findCutoffGo_spec h
  exact ⟨ht, msg, hmsg, hrole, by simpa using hcount⟩

theorem findCutoffGo_intro {m : List Message} {keep : Nat} :
    ∀ {n cur t : Nat} {msg : Message}, t < n → n ≤ m.length →
      m[t]? = some msg → msg.role = "user" →
      countTurns ((m.take n).drop t) + cur = keep →
      findCutoffGo m keep n cur = some t := by
  intro n
  induction n with
  | zero => intro cur t msg ht; exact absurd ht (Nat.not_lt_zero t)
  | succ n ih =>
    intro cur t msg ht hn hmsg hrole hcount
    have hlt : n < m.length := hn
    have hget : m[n]? = some (m[n]) := List.getElem?_eq_getElem hlt
    have htk : (m.take n).length = n := by
      simp [List.length_take, Nat.le_of_lt hlt]
    rw [findCutoffGo, hget]
    dsimp only
    by_cases hteq : t = n
    · subst hteq
      have hmm : m[t] = msg := by
        rw [hget] at hmsg
        exact Option.some.inj hmsg
      rw [hmm, if_pos hrole]
      rw [List.take_succ, hget, hmm] at hcount
      rw [show (some msg).toList = [msg] from rfl] at hcount
      rw [List.drop_append_of_le_length (Nat.le_of_eq htk.symm)] at hcount
      rw [List.drop_eq_nil_of_le (Nat.le_of_eq htk)] at hcount
      rw [show ([] ++ [msg] : List Message) = [msg] from rfl,
        countTurns_user_cons hrole] at hcount
      simp only [countTurns, List.countP_nil] at hcount
      rw [if_pos (by omega)]
    · have ht' : t < n := by omega
      have hdist : ((m.take (n+1)).drop t) = (m.take n).drop t ++ [m[n]] := by
        rw [List.take_succ, hget]
        rw [show (some (m[n])).toList = [m[n]] from rfl]
        exact List.drop_append_of_le_length (by omega)
      rw [hdist, countTurns_append] at hcount
      have hpos : 0 < countTurns ((m.take n).drop t) := by
        have hmsg' : ((m.take n).drop t)[0]? = some msg := by
          rw [List.getElem?_drop]
          rw [List.getElem?_take_of_lt (by omega)]
          simpa using hmsg
        have hmem : msg ∈ (m.take n).drop t := List.getElem?_mem hmsg'
        simp only [countTurns]
        rw [List.countP_pos_iff]
        exact ⟨msg, hmem, by simp [hrole]⟩
      by_cases hu : (m[n]).role = "user"
      · rw [if_pos hu]
        have h1 : countTurns [m[n]] = 1 := by simp [countTurns, hu]
        rw [if_neg (by omega)]
        exact ih ht' (Nat.le_of_lt hlt) hmsg hrole (by omega)
      · rw [if_neg hu]
        have h1 : countTurns [m[n]] = 0 := by simp [countTurns, hu]
        exact ih ht' (Nat.le_of_lt hlt) hmsg hrole (by omega)

theorem findCutoff_intro {A S : List Message} {keep : Nat} {msg : Message}
    (hhead : S[0]? = some msg) (hrole : msg.role = "user")
    (hcount : countTurns S = keep) :
    findCutoff (A ++ S) keep = some A.length := by
  have hS : S ≠ [] := by
    intro h; subst h; simp at hhead
  have hlen : A.length < (A ++ S).length := by
    simp [List.length_append]
    cases S with
    | nil => exact absurd rfl hS
    | cons s ss => simp
  refine findCutoffGo_intro hlen (Nat.le_refl _) ?_ hrole ?_
  · rw [List.getElem?_append_right (Nat.le_refl _)]
    simpa using hhead
  · rw [List.take_length, List.drop_left]
    omega

/-! # The second pass: structure of compressOlder -/

theorem findToolName_of_seenSim {s₁ s₂ : List Message} (h : SeenSim s₁ s₂) :
    ∀ id_, findToolName s₁ id_ = findToolName s₂ id_ := by
  induction h with
  | nil => intro id_; rfl
  | same m h ih =>
    intro id_
    by_cases ha : m.role = "assistant" ∧ m.toolCalls.length > 0
    · rw [findToolName, findToolName, if_pos ha, if_pos ha]
      cases m.toolCalls.find? (fun tc => tc.id = id_) with
      | some tc => rfl
      | none => exact ih id_
    · rw [findToolName, findToolName, if_neg ha, if_neg ha]
      exact ih id_
  | repl m₁ m₂ h₁ h₂ h ih =>
    intro id_
    rw [findToolName, findToolName,
      if_neg (fun hc => h₁ hc.1), if_neg (fun hc => h₂ hc.1)]
    exact ih id_
  | dropped m hm h ih =>
    intro id_
    rw [findToolName, if_neg (fun hc => hm hc.1)]
    exact ih id_

theorem classifyTransform_role (n : String) (m : Message) :
    (classifyTransform n m).role = m.role := by
  unfold classifyTransform
  split <;> try rfl
  split <;> try rfl
  split <;> rfl

theorem classifyTransform_toolCallID (n : String) (m : Message) :
    (classifyTransform n m).toolCallID = m.toolCallID := by
  unfold classifyTransform
  split <;> try rfl
  split <;> try rfl
  split <;> rfl

theorem classifyTransform_toolCalls (n : String) (m : Message) :
    (classifyTransform n m).toolCalls = m.toolCalls := by
  unfold classifyTransform
  split <;> try rfl
  split <;> try rfl
  split <;> rfl

theorem classifyTransform_reasoning (n : String) (m : Message) :
    (classifyTransform n m).reasoning = m.reasoning := by
  unfold classifyTransform
  split <;> try rfl
  split <;> try rfl
  split <;> rfl

theorem classifyTransform_createdAt (n : String) (m : Message) :
    (classifyTransform n m).createdAt = m.createdAt := by
  unfold classifyTransform
  split <;> try rfl
  split <;> try rfl
  split <;> rfl

theorem set_content_self (m : Message) :
    ({ m with content := m.content } : Message) = m := by
  cases m; rfl

theorem truncateAction_length_le (s : String) :
    (truncateAction s).length ≤ 215 := by
  show (String.mk (s.data.take 200 ++ "... [truncated]".data)).length ≤ 215
  have h1 : (s.data.take 200).length ≤ 200 := List.length_take_le 200 s.data
  have h2 : ("... [truncated]".data).length = 15 := by decide
  show (s.data.take 200 ++ "... [truncated]".data).length ≤ 215
  rw [List.length_append, h2]
  omega

theorem compressedToolResult_length : compressedToolResult.length = 29 := by decide

theorem classifyTransform_idem (n : String) (m : Message) :
    classifyTransform n (classifyTransform n m) = classifyTransform n m := by
  by_cases hauth : isAuthTool n = true
  · simp [classifyTransform, hauth]
  · by_cases hstate : isStateQueryTool n = true
    · have h1 : classifyTransform n m = { m with content := compressedToolResult } := by
        simp [classifyTransform, hauth, hstate]
      rw [h1]
      simp [classifyTransform, hauth, hstate]
    · by_cases hlen : m.content.length > 500
      · have h1 : classifyTransform n m = { m with content := truncateAction m.content } := by
          simp [classifyTransform, hauth, hstate, hlen]
        rw [h1]
        have h2 : ¬ (truncateAction m.content).length > 500 := by
          have := truncateAction_length_le m.content
          omega
        simp [classifyTransform, hauth, hstate, h2]
      · have h1 : classifyTransform n m = m := by
          simp [classifyTransform, hauth, hstate, hlen]
        rw [h1, h1]

theorem compressOlder_idem {l s₁ s₂ : List Message} (h : SeenSim s₁ s₂) :
    compressOlder s₁ (compressOlder s₂ l) = compressOlder s₂ l := by
  induction l generalizing s₁ s₂ with
  | nil => rfl
  | cons msg rest ih =>
    by_cases hua : msg.role = "user" ∨ msg.role = "assistant"
    · rw [compressOlder, if_pos hua, compressOlder, if_pos hua]
      rw [ih (SeenSim.same msg h)]
    · by_cases htool : msg.role = "tool"
      · rw [compressOlder, if_neg hua, if_pos htool]
        have hrole' : (classifyTransform (findToolName s₂ msg.toolCallID) msg).role = "tool" := by
          rw [classifyTransform_role, htool]
        have hua' : ¬ ((classifyTransform (findToolName s₂ msg.toolCallID) msg).role = "user" ∨
            (classifyTransform (findToolName s₂ msg.toolCallID) msg).role = "assistant") := by
          rw [hrole']
          decide
        rw [compressOlder, if_neg hua', if_pos hrole']
        have hsim : SeenSim (classifyTransform (findToolName s₂ msg.toolCallID) msg :: s₁)
            (msg :: s₂) :=
          SeenSim.repl _ msg (by rw [hrole']; decide) (by rw [htool]; decide) h
        rw [classifyTransform_toolCallID, findToolName_of_seenSim h,
          classifyTransform_idem, ih hsim]
      · rw [compressOlder, if_neg hua, if_neg htool]
        have hna : msg.role ≠ "assistant" := fun hc => hua (Or.inr hc)
        exact ih (SeenSim.dropped msg hna h)

theorem compressOlder_append (s : List Message) (l₁ l₂ : List Message) :
    compressOlder s (l₁ ++ l₂) =
      compressOlder s l₁ ++ compressOlder (l₁.reverse ++ s) l₂ := by
  induction l₁ generalizing s with
  | nil => simp [compressOlder]
  | cons msg rest ih =>
    by_cases hua : msg.role = "user" ∨ msg.role = "assistant"
    · rw [List.cons_append, compressOlder, if_pos hua, compressOlder, if_pos hua,
        ih (msg :: s)]
      simp
    · by_cases htool : msg.role = "tool"
      · rw [List.cons_append, compressOlder, if_neg hua, if_pos htool,
          compressOlder, if_neg hua, if_pos htool, ih (msg :: s)]
        simp
      · rw [List.cons_append, compressOlder, if_neg hua, if_neg htool,
          compressOlder, if_neg hua, if_neg htool, ih (msg :: s)]
        simp

theorem countTurns_compressOlder (s l : List Message) :
    countTurns (compressOlder s l) = countTurns l := by
  induction l generalizing s with
  | nil => rfl
  | cons msg rest ih =>
    by_cases hua : msg.role = "user" ∨ msg.role = "assistant"
    · rw [compressOlder, if_pos hua]
      by_cases hu : msg.role = "user"
      · rw [countTurns_user_cons hu, countTurns_user_cons hu, ih]
      · rw [countTurns_other_cons hu, countTurns_other_cons hu, ih]
    · by_cases htool : msg.role = "tool"
      · rw [compressOlder, if_neg hua, if_pos htool]
        have hu' : ¬ (classifyTransform (findToolName s msg.toolCallID) msg).role = "user" := by
          rw [classifyTransform_role, htool]; decide
        have hu : ¬ msg.role = "user" := fun hc => hua (Or.inl hc)
        rw [countTurns_other_cons hu', countTurns_other_cons hu, ih]
      · rw [compressOlder, if_neg hua, if_neg htool]
        have hu : ¬ msg.role = "user" := fun hc => hua (Or.inl hc)
        rw [countTurns_other_cons hu, ih]

/-! # Claim theorems: compression -/

/-- C4: CompressHistory is idempotent — compressing an already-compressed
sequence with the same keepFullTurns yields an identical result, with no
further size growth. -/
theorem compressHistory_idempotent (m : List Message) (keep : Nat) :
    CompressHistory (CompressHistory m keep) keep = CompressHistory m keep := by
  by_cases h1 : countTurns m ≤ keep
  · rw [compressHistory_of_count_le h1]
    exact compressHistory_of_count_le h1
  cases hcut : findCutoff m keep with
  | none =>
    rw [compressHistory_of_cutoff_none hcut]
    exact compressHistory_of_cutoff_none hcut
  | some cutoff =>
    by_cases hz : cutoff = 0
    · subst hz
      rw [compressHistory_of_cutoff_zero hcut]
      exact compressHistory_of_cutoff_zero hcut
    · have hmain := compressHistory_main h1 hcut hz
      obtain ⟨hlt, msg, hmsg, hrole, hScount⟩ := findCutoff_spec hcut
      have hhead : (m.drop cutoff)[0]? = some msg := by
        rw [List.getElem?_drop]
        simpa using hmsg
      have hcount2 : countTurns (compressOlder [] (m.take cutoff) ++ m.drop cutoff)
          = countTurns m := by
        rw [countTurns_append, countTurns_compressOlder]
        conv_rhs => rw [← List.take_append_drop cutoff m]
        rw [countTurns_append]
      have hcut2 : findCutoff (compressOlder [] (m.take cutoff) ++ m.drop cutoff) keep
          = some (compressOlder [] (m.take cutoff)).length :=
        findCutoff_intro hhead hrole hScount
      rw [hmain]
      by_cases hp : (compressOlder [] (m.take cutoff)).length = 0
      · rw [hp] at hcut2
        exact compressHistory_of_cutoff_zero hcut2
      · rw [compressHistory_main (by rw [hcount2]; exact h1) hcut2 hp]
        rw [List.take_left, List.drop_left]
        rw [compressOlder_idem SeenSim.nil]

/-- C5: a history with at most keepFullTurns turns is returned unchanged
(the identity law). -/
theorem compressHistory_identity (m : List Message) (keep : Nat)
    (h : countTurns m ≤ keep) : CompressHistory m keep = m :=
  compressHistory_of_count_le h

/-- Witness for C5 on a concrete 3-turn history with keepFullTurns = 5. -/
theorem compressHistory_identity_witness :
    countTurns exHistory ≤ 5 ∧ CompressHistory exHistory 5 = exHistory :=
  ⟨by decide, compressHistory_identity exHistory 5 (by decide)⟩

theorem compressHistory_getElem {m : List Message} {keep i : Nat} {msg' : Message}
    (h : contributionAt m keep i = some msg') :
    (CompressHistory m keep)[compressedIndex m keep i]? = some msg' := by
  cases hget : m[i]? with
  | none => rw [contributionAt, hget] at h; exact Option.noConfusion h
  | some msg =>
    rw [contributionAt, hget] at h
    dsimp only at h
    by_cases h1 : countTurns m ≤ keep
    · rw [if_pos h1] at h
      rw [compressHistory_of_count_le h1, compressedIndex, if_pos h1, hget]
      exact h
    · rw [if_neg h1] at h
      cases hcut : findCutoff m keep with
      | none =>
        rw [hcut] at h
        rw [compressHistory_of_cutoff_none hcut, compressedIndex, if_neg h1, hcut, hget]
        exact h
      | some cutoff =>
        rw [hcut] at h
        dsimp only at h
        by_cases hz : cutoff = 0
        · rw [if_pos hz] at h
          subst hz
          rw [compressHistory_of_cutoff_zero hcut, compressedIndex, if_neg h1, hcut]
          dsimp only
          rw [if_pos rfl, hget]
          exact h
        · rw [if_neg hz] at h
          have hmain := compressHistory_main h1 hcut hz
          rw [hmain, compressedIndex, if_neg h1, hcut]
          dsimp only
          rw [if_neg hz]
          have hlt : i < m.length := by
            by_contra hge
            push_neg at hge
            rw [List.getElem?_eq_none hge] at hget
            exact Option.noConfusion hget
          by_cases hge : cutoff ≤ i
          · rw [if_pos hge] at h ⊢
            have hplen : (compressOlder [] (m.take cutoff)).length ≤
                (compressOlder [] (m.take cutoff)).length + (i - cutoff) :=
              Nat.le_add_right _ _
            rw [List.getElem?_append_right hplen, Nat.add_sub_cancel_left,
              List.getElem?_drop, Nat.add_sub_cancel' hge, hget]
            exact h
          · rw [if_neg hge] at h ⊢
            push_neg at hge
            -- decompose the compressed prefix at position i
            have htt : (m.take cutoff).take i = m.take i := by
              rw [List.take_take, Nat.min_eq_left (Nat.le_of_lt hge)]
            have hilen : i < (m.take cutoff).length := by
              rw [List.length_take]
              omega
            have hgetp : (m.take cutoff)[i] = msg := by
              have := List.getElem?_take_of_lt (l := m) (n := cutoff) hge
              rw [hget] at this
              have h2 := List.getElem?_eq_getElem hilen
              rw [this] at h2
              exact (Option.some.inj h2).symm
            have hdc : m.take cutoff = m.take i ++ (msg :: (m.take cutoff).drop (i + 1)) := by
              conv_lhs => rw [← List.take_append_drop i (m.take cutoff)]
              rw [htt, List.drop_eq_getElem_cons hilen, hgetp]
            rw [hdc, compressOlder_append]
            simp only [List.append_nil]
            by_cases hua : msg.role = "user" ∨ msg.role = "assistant"
            · rw [if_pos hua] at h
              rw [compressOlder, if_pos hua, List.append_assoc,
                List.getElem?_append_right (Nat.le_refl _), Nat.sub_self]
              simpa using h
            · rw [if_neg hua] at h
              by_cases htool : msg.role = "tool"
              · rw [if_pos htool] at h
                rw [compressOlder, if_neg hua, if_pos htool, List.append_assoc,
                  List.getElem?_append_right (Nat.le_refl _), Nat.sub_self]
                have hres : findToolNameForResult m i
                    = findToolName (m.take i).reverse msg.toolCallID := by
                  rw [findToolNameForResult, hget]
                  dsimp only
                  rw [if_pos htool]
                rw [← hres]
                simpa using h
              · rw [if_neg htool] at h
                exact Option.noConfusion h

theorem state_not_auth {n : String} (h : isStateQueryTool n = true) :
    isAuthTool n = false := by
  simp only [isStateQueryTool, List.any_cons, List.any_nil, Bool.or_eq_true,
    decide_eq_true_eq, Bool.or_eq_false_iff] at h
  rcases h with h|h|h|h|h|h|h|h|h|h|h|h
  all_goals first
    | (simp only [isAuthTool, List.any_cons, List.any_nil, h]; decide)
    | exact absurd h (by simp)

/-- C6: an auth-class tool result survives compression completely
unchanged, at its corresponding output position, regardless of its position
relative to the cutoff and of its content length. -/
theorem compress_auth_invariant (m : List Message) (keep i : Nat) (msg : Message)
    (hget : m[i]? = some msg) (hrole : msg.role = "tool")
    (hauth : isAuthTool (findToolNameForResult m i) = true) :
    (CompressHistory m keep)[compressedIndex m keep i]? = some msg := by
  apply compressHistory_getElem
  rw [contributionAt, hget]
  dsimp only
  by_cases h1 : countTurns m ≤ keep
  · rw [if_pos h1]
  · rw [if_neg h1]
    cases hcut : findCutoff m keep with
    | none => rfl
    | some cutoff =>
      dsimp only
      by_cases hz : cutoff = 0
      · rw [if_pos hz]
      · rw [if_neg hz]
        by_cases hge : cutoff ≤ i
        · rw [if_pos hge]
        · rw [if_neg hge]
          have hua : ¬ (msg.role = "user" ∨ msg.role = "assistant") := by
            rw [hrole]; decide
          rw [if_neg hua, if_pos hrole]
          congr 1
          simp [classifyTransform, hauth]

/-- Witness for C6: the login result of the oldest turn (compressed away
for state tools) is kept verbatim. -/
theorem compress_auth_invariant_witness :
    (CompressHistory exAuthHistory 2)[compressedIndex exAuthHistory 2 2]? =
      some exAuthMsg :=
  compress_auth_invariant exAuthHistory 2 2 exAuthMsg (by decide) (by decide) (by decide)

/-- C7: with more turns than keepFullTurns, every state-query tool result
before the cutoff has its content replaced by the fixed compression marker,
unconditionally, and every message at or after the cutoff is kept verbatim;
concretely (Scenario A), the 3-turn `exHistory` with keepFullTurns = 2
keeps the last 2 turns and replaces the oldest turn's get_status result
with the marker. -/
theorem compress_state_marker (m : List Message) (keep cutoff : Nat)
    (hturns : keep < countTurns m) (hcut : findCutoff m keep = some cutoff) :
    (∀ i msg, m[i]? = some msg → msg.role = "tool" →
        isStateQueryTool (findToolNameForResult m i) = true → i < cutoff →
        (CompressHistory m keep)[compressedIndex m keep i]? =
          some { msg with content := compressedToolResult }) ∧
    (∀ i msg, m[i]? = some msg → cutoff ≤ i →
        (CompressHistory m keep)[compressedIndex m keep i]? = some msg) ∧
    CompressHistory exHistory 2 = exHistoryCompressed := by
  have h1 : ¬ countTurns m ≤ keep := Nat.not_le.mpr hturns
  refine ⟨?_, ?_, by decide⟩
  · intro i msg hget hrole hstate hi
    apply compressHistory_getElem
    rw [contributionAt, hget]
    dsimp only
    rw [if_neg h1, hcut]
    dsimp only
    rw [if_neg (by omega), if_neg (by omega)]
    have hua : ¬ (msg.role = "user" ∨ msg.role = "assistant") := by
      rw [hrole]; decide
    rw [if_neg hua, if_pos hrole]
    congr 1
    simp [classifyTransform, state_not_auth hstate, hstate]
  · intro i msg hget hi
    apply compressHistory_getElem
    rw [contributionAt, hget]
    dsimp only
    rw [if_neg h1, hcut]
    dsimp only
    by_cases hz : cutoff = 0
    · rw [if_pos hz]
    · rw [if_neg hz, if_pos hi]

/-- Witness for C7: in `exHistory` with keepFullTurns = 2 (cutoff at index
4), the oldest turn's get_status result is replaced with the marker and the
message at the cutoff is kept verbatim. -/
theorem compress_state_marker_witness :
    (CompressHistory exHistory 2)[compressedIndex exHistory 2 2]? =
      some { exStatusMsg with content := compressedToolResult } ∧
    (CompressHistory exHistory 2)[compressedIndex exHistory 2 4]? =
      some { role := "user", content := "turn2" } ∧
    CompressHistory exHistory 2 = exHistoryCompressed := by
  have h := compress_state_marker exHistory 2 4 (by decide) (by decide)
  refine ⟨?_, ?_, h.2.2⟩
  · exact h.1 2 exStatusMsg (by decide) (by decide) (by decide) (by decide)
  · exact h.2.1 4 { role := "user", content := "turn2" } (by decide) (by decide)

theorem compressOlder_length_uat (s l : List Message)
    (h : ∀ msg ∈ l, msg.role = "user" ∨ msg.role = "assistant" ∨ msg.role = "tool") :
    (compressOlder s l).length = l.length := by
  induction l generalizing s with
  | nil => rfl
  | cons msg rest ih =>
    have hm := h msg (List.mem_cons_self msg rest)
    have hrest : ∀ msg' ∈ rest, msg'.role = "user" ∨ msg'.role = "assistant" ∨
        msg'.role = "tool" := fun m' hm' => h m' (List.mem_cons_of_mem _ hm')
    by_cases hua : msg.role = "user" ∨ msg.role = "assistant"
    · rw [compressOlder, if_pos hua]
      simp [ih _ hrest]
    · have htool : msg.role = "tool" := by
        rcases hm with h'|h'|h'
        · exact absurd (Or.inl h') hua
        · exact absurd (Or.inr h') hua
        · exact h'
      rw [compressOlder, if_neg hua, if_pos htool]
      simp [ih _ hrest]

theorem compressedIndex_eq_self {m : List Message} {keep i : Nat}
    (hroles : ∀ msg ∈ m, msg.role = "user" ∨ msg.role = "assistant" ∨ msg.role = "tool")
    (hlt : i < m.length) : compressedIndex m keep i = i := by
  rw [compressedIndex]
  by_cases h1 : countTurns m ≤ keep
  · rw [if_pos h1]
  · rw [if_neg h1]
    cases hcut : findCutoff m keep with
    | none => rfl
    | some cutoff =>
      dsimp only
      by_cases hz : cutoff = 0
      · rw [if_pos hz]
      · rw [if_neg hz]
        obtain ⟨hclt, _⟩ := findCutoff_spec hcut
        by_cases hge : cutoff ≤ i
        · rw [if_pos hge]
          rw [compressOlder_length_uat _ _
            (fun msg' hm' => hroles msg' (List.take_subset _ _ hm'))]
          rw [List.length_take]
          omega
        · rw [if_neg hge]
          rw [compressOlder_length_uat _ _
            (fun msg' hm' => hroles msg' (List.take_subset _ _ hm'))]
          rw [List.length_take]
          omega

/-- C10 (amended): on histories whose messages all have role user,
assistant or tool, CompressHistory preserves length and order; the message
at each output index agrees with the input message on every field except
possibly Content, and Content can differ only for a tool-role message
before the cutoff. -/
theorem compress_frame (m : List Message) (keep : Nat)
    (hroles : ∀ msg ∈ m, msg.role = "user" ∨ msg.role = "assistant" ∨ msg.role = "tool") :
    (CompressHistory m keep).length = m.length ∧
    (∀ i msg, m[i]? = some msg →
      ∃ msg', (CompressHistory m keep)[i]? = some msg' ∧
        msg'.role = msg.role ∧ msg'.toolCallID = msg.toolCallID ∧
        msg'.toolCalls = msg.toolCalls ∧ msg'.reasoning = msg.reasoning ∧
        msg'.createdAt = msg.createdAt ∧
        (msg'.content ≠ msg.content →
          msg.role = "tool" ∧ ∃ cutoff, findCutoff m keep = some cutoff ∧ i < cutoff)) := by
  constructor
  · by_cases h1 : countTurns m ≤ keep
    · rw [compressHistory_of_count_le h1]
    · cases hcut : findCutoff m keep with
      | none => rw [compressHistory_of_cutoff_none hcut]
      | some cutoff =>
        by_cases hz : cutoff = 0
        · subst hz
          rw [compressHistory_of_cutoff_zero hcut]
        · rw [compressHistory_main h1 hcut hz]
          obtain ⟨hclt, _⟩ := findCutoff_spec hcut
          rw [List.length_append,
            compressOlder_length_uat _ _
              (fun msg' hm' => hroles msg' (List.take_subset _ _ hm')),
            List.length_take, List.length_drop]
          omega
  · intro i msg hget
    have hlt : i < m.length := by
      by_contra hge
      push_neg at hge
      rw [List.getElem?_eq_none hge] at hget
      exact Option.noConfusion hget
    have hidx := @compressedIndex_eq_self m keep i hroles hlt
    by_cases h1 : countTurns m ≤ keep
    · refine ⟨msg, ?_, rfl, rfl, rfl, rfl, rfl, fun hc => absurd rfl hc⟩
      have := @compressHistory_getElem m keep i msg ?_
      · rw [hidx] at this
        exact this
      · rw [contributionAt, hget]
        dsimp only
        rw [if_pos h1]
    · cases hcut : findCutoff m keep with
      | none =>
        refine ⟨msg, ?_, rfl, rfl, rfl, rfl, rfl, fun hc => absurd rfl hc⟩
        have := @compressHistory_getElem m keep i msg ?_
        · rw [hidx] at this
          exact this
        · rw [contributionAt, hget]
          dsimp only
          rw [if_neg h1, hcut]
      | some cutoff =>
        by_cases hz : cutoff = 0
        · refine ⟨msg, ?_, rfl, rfl, rfl, rfl, rfl, fun hc => absurd rfl hc⟩
          have := @compressHistory_getElem m keep i msg ?_
          · rw [hidx] at this
            exact this
          · rw [contributionAt, hget]
            dsimp only
            rw [if_neg h1, hcut]
            dsimp only
            rw [if_pos hz]
        · by_cases hge : cutoff ≤ i
          · refine ⟨msg, ?_, rfl, rfl, rfl, rfl, rfl, fun hc => absurd rfl hc⟩
            have := @compressHistory_getElem m keep i msg ?_
            · rw [hidx] at this
              exact this
            · rw [contributionAt, hget]
              dsimp only
              rw [if_neg h1, hcut]
              dsimp only
              rw [if_neg hz, if_pos hge]
          · by_cases hua : msg.role = "user" ∨ msg.role = "assistant"
            · refine ⟨msg, ?_, rfl, rfl, rfl, rfl, rfl, fun hc => absurd rfl hc⟩
              have := @compressHistory_getElem m keep i msg ?_
              · rw [hidx] at this
                exact this
              · rw [contributionAt, hget]
                dsimp only
                rw [if_neg h1, hcut]
                dsimp only
                rw [if_neg hz, if_neg hge, if_pos hua]
            · have htool : msg.role = "tool" := by
                rcases hroles msg (by exact List.getElem?_mem hget) with h'|h'|h'
                · exact absurd (Or.inl h') hua
                · exact absurd (Or.inr h') hua
                · exact h'
              refine ⟨classifyTransform (findToolNameForResult m i) msg, ?_,
                classifyTransform_role _ _, classifyTransform_toolCallID _ _,
                classifyTransform_toolCalls _ _, classifyTransform_reasoning _ _,
                classifyTransform_createdAt _ _,
                fun _ => ⟨htool, Exists.intro cutoff ⟨rfl, by omega⟩⟩⟩
              have := @compressHistory_getElem m keep i
                (classifyTransform (findToolNameForResult m i) msg) ?_
              · rw [hidx] at this
                exact this
              · rw [contributionAt, hget]
                dsimp only
                rw [if_neg h1, hcut]
                dsimp only
                rw [if_neg hz, if_neg hge, if_neg hua, if_pos htool]


/-- Counterexample for C10 as stated: the compressed sequence is shorter
than the input (the system-role message before the cutoff is dropped), so
CompressHistory does not always preserve length. -/
theorem compress_frame_counterexample :
    (CompressHistory exSysHistory 1).length ≠ exSysHistory.length := by decide

/-- Witness for C10 (amended) on the concrete `exHistory`. -/
theorem compress_frame_witness :
    (CompressHistory exHistory 2).length = exHistory.length ∧
    (CompressHistory exHistory 2)[2]? =
      some { exStatusMsg with content := compressedToolResult } := by
  have h := compress_frame exHistory 2 (by decide)
  refine ⟨h.1, ?_⟩
  obtain ⟨msg', hm', _, _, _, _, _, _⟩ := h.2 2 exStatusMsg (by decide)
  rw [hm']
  congr 1
  have : (CompressHistory exHistory 2)[2]? = some msg' := hm'
  rw [show CompressHistory exHistory 2 = exHistoryCompressed from by decide] at this
  have h2 : exHistoryCompressed[2]? =
      some { exStatusMsg with content := compressedToolResult } := by decide
  rw [h2] at this
  exact (Option.some.inj this).symm

/-! # Turn engine: round budget, accumulation, error recovery -/

theorem processRounds_all_tools {prov : ProviderFun} {proxy : ProxyFun}
    {kl now : Nat} :
    ∀ (fuel : Nat) (history : List Message),
      (∀ (k : Nat) (hk ck : List Message), (processRounds prov proxy kl now fuel history).rounds[k]? = some (hk, ck) →
        ∃ resp, prov ck = .ok resp ∧ resp.toolCalls ≠ []) →
      (processRounds prov proxy kl now fuel history).outcome = .roundLimit ∧
      (processRounds prov proxy kl now fuel history).rounds.length = fuel := by
  intro fuel
  induction fuel with
  | zero => intro history _; exact ⟨rfl, rfl⟩
  | succ fuel ih =>
    intro history hyp
    cases hprov : prov (CompressHistory history kl) with
    | error e =>
      exfalso
      have h0 : (processRounds prov proxy kl now (fuel + 1) history).rounds[0]?
          = some (history, CompressHistory history kl) := by
        simp only [processRounds, hprov]
        rfl
      obtain ⟨resp, hok, _⟩ := hyp 0 _ _ h0
      rw [hprov] at hok
      exact Except.noConfusion hok
    | ok resp =>
      by_cases hempty : resp.toolCalls = []
      · exfalso
        have h0 : (processRounds prov proxy kl now (fuel + 1) history).rounds[0]?
            = some (history, CompressHistory history kl) := by
          simp only [processRounds, hprov, hempty]
          rfl
        obtain ⟨resp', hok, hne⟩ := hyp 0 _ _ h0
        rw [hprov] at hok
        have : resp = resp' := Except.ok.inj hok
        exact hne (this ▸ hempty)
      · have heq : processRounds prov proxy kl now (fuel + 1) history =
            { rounds := (history, CompressHistory history kl) ::
                (processRounds prov proxy kl now fuel
                  (history ++ assistantWithCalls resp now ::
                    executeToolCalls proxy resp.toolCalls now)).rounds,
              outcome := (processRounds prov proxy kl now fuel
                  (history ++ assistantWithCalls resp now ::
                    executeToolCalls proxy resp.toolCalls now)).outcome,
              finalHistory := (processRounds prov proxy kl now fuel
                  (history ++ assistantWithCalls resp now ::
                    executeToolCalls proxy resp.toolCalls now)).finalHistory } := by
          simp only [processRounds, hprov, hempty]
          rfl
        have hnext := ih (history ++ assistantWithCalls resp now ::
            executeToolCalls proxy resp.toolCalls now)
          (fun k hk ck hkc => hyp (k + 1) hk ck (by rw [heq]; simpa using hkc))
        rw [heq]
        exact ⟨hnext.1, by simpa using hnext.2⟩

theorem processRounds_success {prov : ProviderFun} {proxy : ProxyFun}
    {kl now : Nat} :
    ∀ (fuel : Nat) (history : List Message) (k : Nat) (hk ck : List Message)
      (resp : ChatResponse),
      (processRounds prov proxy kl now fuel history).rounds[k]? = some (hk, ck) →
      prov ck = .ok resp → resp.toolCalls = [] →
      (processRounds prov proxy kl now fuel history).outcome = .success ∧
      (processRounds prov proxy kl now fuel history).rounds.length = k + 1 := by
  intro fuel
  induction fuel with
  | zero =>
    intro history k hk ck resp hkc
    simp [processRounds] at hkc
  | succ fuel ih =>
    intro history k hk ck resp hkc hok hempty
    cases hprov : prov (CompressHistory history kl) with
    | error e =>
      have heq : processRounds prov proxy kl now (fuel + 1) history =
          { rounds := [(history, CompressHistory history kl)], outcome := .llmError e,
            finalHistory := history } := by
        simp only [processRounds, hprov]
      rw [heq] at hkc
      cases k with
      | zero =>
        simp at hkc
        obtain ⟨h1, h2⟩ := hkc
        rw [← h2, hprov] at hok
        exact Except.noConfusion hok
      | succ k => simp at hkc
    | ok resp' =>
      by_cases hempty' : resp'.toolCalls = []
      · have heq : processRounds prov proxy kl now (fuel + 1) history =
            { rounds := [(history, CompressHistory history kl)], outcome := .success,
              finalHistory := history ++ [assistantFinal resp' now] } := by
          simp only [processRounds, hprov, hempty']
          rfl
        rw [heq]
        rw [heq] at hkc
        cases k with
        | zero => exact ⟨rfl, rfl⟩
        | succ k => simp at hkc
      · have heq : processRounds prov proxy kl now (fuel + 1) history =
            { rounds := (history, CompressHistory history kl) ::
                (processRounds prov proxy kl now fuel
                  (history ++ assistantWithCalls resp' now ::
                    executeToolCalls proxy resp'.toolCalls now)).rounds,
              outcome := (processRounds prov proxy kl now fuel
                  (history ++ assistantWithCalls resp' now ::
                    executeToolCalls proxy resp'.toolCalls now)).outcome,
              finalHistory := (processRounds prov proxy kl now fuel
                  (history ++ assistantWithCalls resp' now ::
                    executeToolCalls proxy resp'.toolCalls now)).finalHistory } := by
          simp only [processRounds, hprov, hempty']
          rfl
        rw [heq] at hkc ⊢
        cases k with
        | zero =>
          exfalso
          simp at hkc
          obtain ⟨h1, h2⟩ := hkc
          rw [← h2, hprov] at hok
          have : resp' = resp := Except.ok.inj hok
          exact hempty' (this ▸ hempty)
        | succ k =>
          simp only [List.getElem?_cons_succ] at hkc
          have := ih _ k hk ck resp hkc hok hempty
          exact ⟨this.1, by simp [this.2]⟩

/-- C9: when every model response the turn sees carries at least one tool
call, ProcessTurn stops with the distinct round-budget-exceeded outcome
after exactly its round budget of model calls (20 when the zero value is
configured); conversely the turn succeeds as soon as a response carries no
tool calls, making no further model calls. -/
theorem processTurn_round_budget (prov : ProviderFun) (proxy : ProxyFun)
    (maxToolRounds historyKeepLast now : Nat) (history : List Message) :
    ((∀ (k : Nat) (hk ck : List Message),
        (ProcessTurn prov proxy maxToolRounds historyKeepLast now history).rounds[k]?
          = some (hk, ck) → ∃ resp, prov ck = .ok resp ∧ resp.toolCalls ≠ []) →
      (ProcessTurn prov proxy maxToolRounds historyKeepLast now history).outcome
        = .roundLimit ∧
      (ProcessTurn prov proxy maxToolRounds historyKeepLast now history).rounds.length
        = (if maxToolRounds = 0 then 20 else maxToolRounds)) ∧
    (∀ (k : Nat) (hk ck : List Message) (resp : ChatResponse),
      (ProcessTurn prov proxy maxToolRounds historyKeepLast now history).rounds[k]?
        = some (hk, ck) → prov ck = .ok resp → resp.toolCalls = [] →
      (ProcessTurn prov proxy maxToolRounds historyKeepLast now history).outcome
        = .success ∧
      (ProcessTurn prov proxy maxToolRounds historyKeepLast now history).rounds.length
        = k + 1) := by
  constructor
  · intro hyp
    exact processRounds_all_tools _ history hyp
  · intro k hk ck resp hkc hok hempty
    exact processRounds_success _ history k hk ck resp hkc hok hempty

/-- Witness for C9: a provider that always requests the `mine` tool
exhausts a budget of 3 rounds; one that never requests tools succeeds in
round 1. -/
theorem processTurn_round_budget_witness :
    ((ProcessTurn wProvAlways wProxyOk 3 10 0 [wUserMsg]).outcome = .roundLimit ∧
     (ProcessTurn wProvAlways wProxyOk 3 10 0 [wUserMsg]).rounds.length = 3) ∧
    ((ProcessTurn wProvFinal wProxyOk 3 10 0 [wUserMsg]).outcome = .success ∧
     (ProcessTurn wProvFinal wProxyOk 3 10 0 [wUserMsg]).rounds.length = 1) := by
  constructor
  · have h := (processTurn_round_budget wProvAlways wProxyOk 3 10 0 [wUserMsg]).1
      (fun k hk ck _ => ⟨wRespTools, rfl, by decide⟩)
    exact ⟨h.1, by simpa using h.2⟩
  · exact (processTurn_round_budget wProvFinal wProxyOk 3 10 0 [wUserMsg]).2
      0 [wUserMsg] [wUserMsg] wRespFinal (by decide) rfl rfl

theorem processRounds_rounds_ne_nil {prov : ProviderFun} {proxy : ProxyFun}
    {kl now : Nat} (fuel : Nat) (history : List Message) (hf : 1 ≤ fuel) :
    1 ≤ (processRounds prov proxy kl now fuel history).rounds.length := by
  cases fuel with
  | zero => omega
  | succ fuel =>
    cases hprov : prov (CompressHistory history kl) with
    | error e => simp [processRounds, hprov]
    | ok resp =>
      by_cases hempty : resp.toolCalls = [] <;>
        simp [processRounds, hprov, hempty]

theorem processRounds_continues {prov : ProviderFun} {proxy : ProxyFun}
    {kl now : Nat} :
    ∀ (fuel : Nat) (history : List Message) (k : Nat) (hk ck : List Message)
      (resp : ChatResponse),
      (processRounds prov proxy kl now fuel history).rounds[k]? = some (hk, ck) →
      prov ck = .ok resp → resp.toolCalls ≠ [] → k + 1 < fuel →
      k + 1 < (processRounds prov proxy kl now fuel history).rounds.length := by
  intro fuel
  induction fuel with
  | zero =>
    intro history k hk ck resp hkc
    simp [processRounds] at hkc
  | succ fuel ih =>
    intro history k hk ck resp hkc hok hne hkf
    cases hprov : prov (CompressHistory history kl) with
    | error e =>
      have heq : processRounds prov proxy kl now (fuel + 1) history =
          { rounds := [(history, CompressHistory history kl)], outcome := .llmError e,
            finalHistory := history } := by
        simp only [processRounds, hprov]
      rw [heq] at hkc
      cases k with
      | zero =>
        simp at hkc
        rw [← hkc.2, hprov] at hok
        exact Except.noConfusion hok
      | succ k => simp at hkc
    | ok resp' =>
      by_cases hempty' : resp'.toolCalls = []
      · have heq : processRounds prov proxy kl now (fuel + 1) history =
            { rounds := [(history, CompressHistory history kl)], outcome := .success,
              finalHistory := history ++ [assistantFinal resp' now] } := by
          simp only [processRounds, hprov, hempty']
          rfl
        rw [heq] at hkc
        cases k with
        | zero =>
          simp at hkc
          rw [← hkc.2, hprov] at hok
          have : resp' = resp := Except.ok.inj hok
          exact absurd (this ▸ hempty') hne
        | succ k => simp at hkc
      · have heq : processRounds prov proxy kl now (fuel + 1) history =
            { rounds := (history, CompressHistory history kl) ::
                (processRounds prov proxy kl now fuel
                  (history ++ assistantWithCalls resp' now ::
                    executeToolCalls proxy resp'.toolCalls now)).rounds,
              outcome := (processRounds prov proxy kl now fuel
                  (history ++ assistantWithCalls resp' now ::
                    executeToolCalls proxy resp'.toolCalls now)).outcome,
              finalHistory := (processRounds prov proxy kl now fuel
                  (history ++ assistantWithCalls resp' now ::
                    executeToolCalls proxy resp'.toolCalls now)).finalHistory } := by
          simp only [processRounds, hprov, hempty']
          rfl
        rw [heq] at hkc ⊢
        cases k with
        | zero =>
          simp only [List.length_cons]
          have := @processRounds_rounds_ne_nil prov proxy kl now fuel
            (history ++ assistantWithCalls resp' now ::
              executeToolCalls proxy resp'.toolCalls now) (by omega)
          omega
        | succ k =>
          simp only [List.getElem?_cons_succ] at hkc
          have := ih _ k hk ck resp hkc hok hne (by omega)
          simp only [List.length_cons]
          omega

/-- C8: a failing tool call is recovered locally, not propagated — every
call of a round yields exactly one tool-role message whose tool_call_id is
the call's id and whose content is the transport error text
("Error: …") or the extracted tool-result text (also when is_error is
set); and after a round with tool calls the engine calls the model again
whenever budget remains. -/
theorem toolError_recovered (proxy : ProxyFun) (tcs : List ToolCall) (now : Nat) :
    ((executeToolCalls proxy tcs now).length = tcs.length ∧
     ∀ (i : Nat) (tc : ToolCall), tcs[i]? = some tc →
       (executeToolCalls proxy tcs now)[i]? = some (buildToolMessage proxy tc now) ∧
       (buildToolMessage proxy tc now).role = "tool" ∧
       (buildToolMessage proxy tc now).toolCallID = tc.id ∧
       (buildToolMessage proxy tc now).content =
         (match proxy tc.name tc.arguments with
          | .error e => "Error: " ++ e
          | .ok r => extractTextFromContent r.content)) ∧
    (∀ (prov : ProviderFun) (mr kl now' : Nat) (history : List Message)
       (k : Nat) (hk ck : List Message) (resp : ChatResponse),
      (ProcessTurn prov proxy mr kl now' history).rounds[k]? = some (hk, ck) →
      prov ck = .ok resp → resp.toolCalls ≠ [] →
      k + 1 < (if mr = 0 then 20 else mr) →
      k + 1 < (ProcessTurn prov proxy mr kl now' history).rounds.length) := by
  refine ⟨⟨by simp [executeToolCalls], ?_⟩, ?_⟩
  · intro i tc hget
    refine ⟨?_, ?_, ?_, ?_⟩
    · rw [executeToolCalls, List.getElem?_map, hget]
      rfl
    · rw [buildToolMessage]
      cases proxy tc.name tc.arguments with
      | error e => rfl
      | ok r => by_cases hr : r.isError <;> simp [hr]
    · rw [buildToolMessage]
      cases proxy tc.name tc.arguments with
      | error e => rfl
      | ok r => by_cases hr : r.isError <;> simp [hr]
    · rw [buildToolMessage]
      cases proxy tc.name tc.arguments with
      | error e => rfl
      | ok r => by_cases hr : r.isError <;> simp [hr]
  · intro prov mr kl now' history k hk ck resp hkc hok hne hkf
    exact processRounds_continues _ history k hk ck resp hkc hok hne hkf


/-- Witness for C8: all three calls execute, the transport failure and the
is_error result each become an ordinary tool message, and the turn goes on
to round 2. -/
theorem toolError_recovered_witness :
    (executeToolCalls wProxyMixed wCalls 0).length = 3 ∧
    (buildToolMessage wProxyMixed { id := "a", name := "mine", arguments := "{}" } 0).content
      = "Error: connection refused" ∧
    (buildToolMessage wProxyMixed { id := "b", name := "scan", arguments := "{}" } 0).content
      = "scan failed: no fuel" ∧
    (buildToolMessage wProxyMixed { id := "b", name := "scan", arguments := "{}" } 0).toolCallID
      = "b" ∧
    1 < (ProcessTurn wProvAlways wProxyMixed 3 10 0 [wUserMsg]).rounds.length := by
  have h := toolError_recovered wProxyMixed wCalls 0
  refine ⟨h.1.1, ?_, ?_, ?_, ?_⟩
  · have h0 := h.1.2 0 { id := "a", name := "mine", arguments := "{}" } (by decide)
    rw [h0.2.2.2]
    decide
  · have h1 := h.1.2 1 { id := "b", name := "scan", arguments := "{}" } (by decide)
    rw [h1.2.2.2]
    decide
  · have h1 := h.1.2 1 { id := "b", name := "scan", arguments := "{}" } (by decide)
    exact h1.2.2.1
  · exact h.2 wProvAlways 3 10 0 [wUserMsg] 0 [wUserMsg] [wUserMsg] wRespTools
      (by decide) rfl (by decide) (by decide)

theorem buildToolMessage_role (proxy : ProxyFun) (tc : ToolCall) (now : Nat) :
    (buildToolMessage proxy tc now).role = "tool" := by
  rw [buildToolMessage]
  cases proxy tc.name tc.arguments with
  | error e => rfl
  | ok r => by_cases hr : r.isError <;> simp [hr]

theorem buildToolMessage_toolCallID (proxy : ProxyFun) (tc : ToolCall) (now : Nat) :
    (buildToolMessage proxy tc now).toolCallID = tc.id := by
  rw [buildToolMessage]
  cases proxy tc.name tc.arguments with
  | error e => rfl
  | ok r => by_cases hr : r.isError <;> simp [hr]

theorem executeToolCalls_roles {proxy : ProxyFun} {tcs : List ToolCall} {now : Nat} :
    ∀ msg ∈ executeToolCalls proxy tcs now, msg.role = "tool" := by
  intro msg hmem
  rw [executeToolCalls] at hmem
  obtain ⟨tc, _, rfl⟩ := List.mem_map.mp hmem
  exact buildToolMessage_role proxy tc now

theorem suffix_of_compress_append (h app : List Message) (kl : Nat)
    (happ : ∀ msg ∈ app, msg.role ≠ "user") :
    app <:+ CompressHistory (h ++ app) kl := by
  by_cases h1 : countTurns (h ++ app) ≤ kl
  · rw [compressHistory_of_count_le h1]
    exact ⟨h, rfl⟩
  cases hcut : findCutoff (h ++ app) kl with
  | none =>
    rw [compressHistory_of_cutoff_none hcut]
    exact ⟨h, rfl⟩
  | some cutoff =>
    by_cases hz : cutoff = 0
    · subst hz
      rw [compressHistory_of_cutoff_zero hcut]
      exact ⟨h, rfl⟩
    · obtain ⟨hclt, msg, hmsg, hrole, _⟩ := findCutoff_spec hcut
      have hcle : cutoff ≤ h.length := by
        by_contra hgt
        push_neg at hgt
        have : (h ++ app)[cutoff]? = app[cutoff - h.length]? :=
          List.getElem?_append_right (Nat.le_of_lt hgt)
        rw [hmsg] at this
        have hmem : msg ∈ app := List.getElem?_mem this.symm
        exact happ msg hmem hrole
      rw [compressHistory_main h1 hcut hz]
      rw [List.drop_append_of_le_length hcle]
      exact ⟨compressOlder [] ((h ++ app).take cutoff) ++ h.drop cutoff,
        by rw [List.append_assoc]⟩

theorem processRounds_head {prov : ProviderFun} {proxy : ProxyFun}
    {kl now : Nat} (fuel : Nat) (history hk ck : List Message)
    (h : (processRounds prov proxy kl now fuel history).rounds[0]? = some (hk, ck)) :
    hk = history ∧ ck = CompressHistory history kl := by
  cases fuel with
  | zero => simp [processRounds] at h
  | succ fuel =>
    cases hprov : prov (CompressHistory history kl) with
    | error e =>
      have heq : (processRounds prov proxy kl now (fuel + 1) history).rounds
          = [(history, CompressHistory history kl)] := by
        simp only [processRounds, hprov]
      rw [heq] at h
      simp at h
      exact ⟨h.1.symm, h.2.symm⟩
    | ok resp =>
      by_cases hempty : resp.toolCalls = []
      · have heq : (processRounds prov proxy kl now (fuel + 1) history).rounds
            = [(history, CompressHistory history kl)] := by
          simp only [processRounds, hprov, hempty]
          rfl
        rw [heq] at h
        simp at h
        exact ⟨h.1.symm, h.2.symm⟩
      · have heq : (processRounds prov proxy kl now (fuel + 1) history).rounds
            = (history, CompressHistory history kl) ::
              (processRounds prov proxy kl now fuel
                (history ++ assistantWithCalls resp now ::
                  executeToolCalls proxy resp.toolCalls now)).rounds := by
          simp only [processRounds, hprov, hempty]
          rfl
        rw [heq] at h
        simp at h
        exact ⟨h.1.symm, h.2.symm⟩

theorem processRounds_accumulates {prov : ProviderFun} {proxy : ProxyFun}
    {kl now : Nat} :
    ∀ (fuel : Nat) (history : List Message) (k : Nat) (hk ck h1 c1 : List Message)
      (resp : ChatResponse),
      (processRounds prov proxy kl now fuel history).rounds[k]? = some (hk, ck) →
      prov ck = .ok resp → resp.toolCalls ≠ [] →
      (processRounds prov proxy kl now fuel history).rounds[k + 1]? = some (h1, c1) →
      h1 = hk ++ assistantWithCalls resp now ::
        executeToolCalls proxy resp.toolCalls now ∧
      c1 = CompressHistory h1 kl := by
  intro fuel
  induction fuel with
  | zero =>
    intro history k hk ck h1 c1 resp hkc
    simp [processRounds] at hkc
  | succ fuel ih =>
    intro history k hk ck h1 c1 resp hkc hok hne hkc1
    cases hprov : prov (CompressHistory history kl) with
    | error e =>
      have heq : (processRounds prov proxy kl now (fuel + 1) history).rounds
          = [(history, CompressHistory history kl)] := by
        simp only [processRounds, hprov]
      rw [heq] at hkc1
      cases k <;> simp at hkc1
    | ok resp' =>
      by_cases hempty' : resp'.toolCalls = []
      · have heq : (processRounds prov proxy kl now (fuel + 1) history).rounds
            = [(history, CompressHistory history kl)] := by
          simp only [processRounds, hprov, hempty']
          rfl
        rw [heq] at hkc1
        cases k <;> simp at hkc1
      · have heq : (processRounds prov proxy kl now (fuel + 1) history).rounds
            = (history, CompressHistory history kl) ::
              (processRounds prov proxy kl now fuel
                (history ++ assistantWithCalls resp' now ::
                  executeToolCalls proxy resp'.toolCalls now)).rounds := by
          simp only [processRounds, hprov, hempty']
          rfl
        rw [heq] at hkc hkc1
        cases k with
        | zero =>
          simp only [List.getElem?_cons_zero] at hkc
          have hhk : hk = history ∧ ck = CompressHistory history kl := by
            have := Option.some.inj hkc
            exact ⟨congrArg Prod.fst this.symm, congrArg Prod.snd this.symm⟩
          obtain ⟨rfl, rfl⟩ := hhk
          rw [hprov] at hok
          have hresp : resp' = resp := Except.ok.inj hok
          subst hresp
          simp only [List.getElem?_cons_succ] at hkc1
          have := processRounds_head fuel _ h1 c1 hkc1
          exact ⟨this.1, by rw [this.2, this.1]⟩
        | succ k =>
          simp only [List.getElem?_cons_succ] at hkc hkc1
          exact ih _ k hk ck h1 c1 resp hkc hok hne hkc1

/-- C1: the turn engine accumulates into the working history it compresses
from — when round k's response carries tool calls, the history handed to
the compressor (and, compressed, to the model) on round k+1 is exactly
round k's history extended, in order, with the assistant message carrying
the tool calls and one tool-role result message per call; those appended
messages survive compression verbatim as a suffix of what the model
sees. -/
theorem workingHistory_accumulates (prov : ProviderFun) (proxy : ProxyFun)
    (mr kl now : Nat) (history : List Message) :
    ∀ (k : Nat) (hk ck h1 c1 : List Message) (resp : ChatResponse),
      (ProcessTurn prov proxy mr kl now history).rounds[k]? = some (hk, ck) →
      prov ck = .ok resp → resp.toolCalls ≠ [] →
      (ProcessTurn prov proxy mr kl now history).rounds[k + 1]? = some (h1, c1) →
      h1 = hk ++ assistantWithCalls resp now ::
        executeToolCalls proxy resp.toolCalls now ∧
      (executeToolCalls proxy resp.toolCalls now).length = resp.toolCalls.length ∧
      c1 = CompressHistory h1 (if kl = 0 then 10 else kl) ∧
      (assistantWithCalls resp now ::
        executeToolCalls proxy resp.toolCalls now) <:+ c1 := by
  intro k hk ck h1 c1 resp hkc hok hne hkc1
  obtain ⟨hh1, hc1⟩ := processRounds_accumulates _ history k hk ck h1 c1 resp hkc hok hne hkc1
  refine ⟨hh1, by simp [executeToolCalls], hc1, ?_⟩
  rw [hc1, hh1]
  apply suffix_of_compress_append
  intro msg hmem
  cases hmem with
  | head =>
    intro hc
    exact absurd hc (by simp [assistantWithCalls])
  | tail _ hmem =>
    rw [executeToolCalls_roles msg hmem]
    decide

/-- Witness for C1 on a concrete two-round turn: round 0 calls `mine`,
round 1 sees the full accumulated history. -/
theorem workingHistory_accumulates_witness :
    (ProcessTurn wProvOnce wProxyOk 3 10 0 [wUserMsg]).rounds[1]? =
      some ([wUserMsg, assistantWithCalls wRespTools 0, buildToolMessage wProxyOk wToolCall 0],
        [wUserMsg, assistantWithCalls wRespTools 0, buildToolMessage wProxyOk wToolCall 0]) ∧
    ([wUserMsg, assistantWithCalls wRespTools 0, buildToolMessage wProxyOk wToolCall 0]
      = [wUserMsg] ++ assistantWithCalls wRespTools 0 ::
          executeToolCalls wProxyOk wRespTools.toolCalls 0) ∧
    ((assistantWithCalls wRespTools 0 ::
        executeToolCalls wProxyOk wRespTools.toolCalls 0) <:+
      [wUserMsg, assistantWithCalls wRespTools 0, buildToolMessage wProxyOk wToolCall 0]) := by
  have h := workingHistory_accumulates wProvOnce wProxyOk 3 10 0 [wUserMsg] 0
    [wUserMsg] [wUserMsg]
    [wUserMsg, assistantWithCalls wRespTools 0, buildToolMessage wProxyOk wToolCall 0]
    [wUserMsg, assistantWithCalls wRespTools 0, buildToolMessage wProxyOk wToolCall 0]
    wRespTools (by decide) rfl (by decide) (by decide)
  exact ⟨by decide, h.1, h.2.2.2⟩

theorem noOrphansFrom_append (seen l₁ l₂ : List Message) :
    noOrphansFrom seen (l₁ ++ l₂) =
      (noOrphansFrom seen l₁ && noOrphansFrom (l₁.reverse ++ seen) l₂) := by
  induction l₁ generalizing seen with
  | nil => simp [noOrphansFrom]
  | cons m rest ih =>
    rw [List.cons_append, noOrphansFrom, noOrphansFrom, ih (m :: seen),
      Bool.and_assoc]
    congr 2
    simp

theorem hasMatchingCall_of_mem {seen : List Message} {a : Message} {tc : ToolCall}
    (ha : a ∈ seen) (hrole : a.role = "assistant") (htc : tc ∈ a.toolCalls)
    {id_ : String} (hid : tc.id = id_) :
    hasMatchingCall seen id_ = true := by
  rw [hasMatchingCall, List.any_eq_true]
  refine ⟨a, ha, ?_⟩
  rw [Bool.and_eq_true]
  constructor
  · simp [hrole]
  · rw [List.any_eq_true]
    exact ⟨tc, htc, by simp [hid]⟩

theorem noOrphansFrom_of_matched :
    ∀ (rs seen : List Message),
      (∀ msg ∈ rs, msg.role = "tool" ∧
        ∃ a ∈ seen, a.role = "assistant" ∧
          ∃ tc ∈ a.toolCalls, tc.id = msg.toolCallID) →
      noOrphansFrom seen rs = true := by
  intro rs
  induction rs with
  | nil => intro seen _; rfl
  | cons msg rest ih =>
    intro seen hyp
    obtain ⟨htool, a, ha, hrole, tc, htc, hid⟩ := hyp msg (List.mem_cons_self _ _)
    rw [noOrphansFrom, Bool.and_eq_true]
    constructor
    · rw [if_pos htool]
      exact hasMatchingCall_of_mem ha hrole htc hid
    · apply ih (msg :: seen)
      intro msg' hmem'
      obtain ⟨ht', a', ha', hr', tc', htc', hid'⟩ := hyp msg' (List.mem_cons_of_mem _ hmem')
      exact ⟨ht', a', List.mem_cons_of_mem _ ha', hr', tc', htc', hid'⟩

theorem noOrphans_append_round (h : List Message) (resp : ChatResponse)
    (proxy : ProxyFun) (now n : Nat) (hno : noOrphans h = true) :
    noOrphans (h ++ assistantWithCalls resp now ::
      (executeToolCalls proxy resp.toolCalls now).take n) = true := by
  rw [noOrphans, noOrphansFrom_append, Bool.and_eq_true]
  refine ⟨hno, ?_⟩
  rw [noOrphansFrom, Bool.and_eq_true]
  constructor
  · rw [if_neg (by simp [assistantWithCalls])]
  · apply noOrphansFrom_of_matched
    intro msg hmem
    have hmem' : msg ∈ executeToolCalls proxy resp.toolCalls now :=
      List.take_subset _ _ hmem
    obtain ⟨tc, htc, rfl⟩ := List.mem_map.mp hmem'
    refine ⟨buildToolMessage_role proxy tc now,
      assistantWithCalls resp now, List.mem_cons_self _ _, rfl, tc, ?_,
      (buildToolMessage_toolCallID proxy tc now).symm⟩
    simpa [assistantWithCalls] using htc

theorem noOrphans_append_nontool (h : List Message) (a : Message)
    (hno : noOrphans h = true) (ha : a.role ≠ "tool") :
    noOrphans (h ++ [a]) = true := by
  rw [noOrphans, noOrphansFrom_append, Bool.and_eq_true]
  refine ⟨hno, ?_⟩
  rw [noOrphansFrom, Bool.and_eq_true]
  exact ⟨by rw [if_neg ha], rfl⟩

theorem processRounds_noOrphans {prov : ProviderFun} {proxy : ProxyFun}
    {kl now : Nat} :
    ∀ (fuel : Nat) (history : List Message), noOrphans history = true →
      (∀ (k : Nat) (hk ck : List Message),
        (processRounds prov proxy kl now fuel history).rounds[k]? = some (hk, ck) →
        noOrphans hk = true) ∧
      noOrphans (processRounds prov proxy kl now fuel history).finalHistory = true := by
  intro fuel
  induction fuel with
  | zero =>
    intro history hno
    exact ⟨fun k hk ck hkc => by simp [processRounds] at hkc, hno⟩
  | succ fuel ih =>
    intro history hno
    cases hprov : prov (CompressHistory history kl) with
    | error e =>
      have heq : processRounds prov proxy kl now (fuel + 1) history =
          { rounds := [(history, CompressHistory history kl)], outcome := .llmError e,
            finalHistory := history } := by
        simp only [processRounds, hprov]
      rw [heq]
      refine ⟨fun k hk ck hkc => ?_, hno⟩
      cases k with
      | zero => simp at hkc; rw [← hkc.1]; exact hno
      | succ k => simp at hkc
    | ok resp =>
      by_cases hempty : resp.toolCalls = []
      · have heq : processRounds prov proxy kl now (fuel + 1) history =
            { rounds := [(history, CompressHistory history kl)], outcome := .success,
              finalHistory := history ++ [assistantFinal resp now] } := by
          simp only [processRounds, hprov, hempty]
          rfl
        rw [heq]
        refine ⟨fun k hk ck hkc => ?_,
          noOrphans_append_nontool history _ hno (by simp [assistantFinal])⟩
        cases k with
        | zero => simp at hkc; rw [← hkc.1]; exact hno
        | succ k => simp at hkc
      · have heq : processRounds prov proxy kl now (fuel + 1) history =
            { rounds := (history, CompressHistory history kl) ::
                (processRounds prov proxy kl now fuel
                  (history ++ assistantWithCalls resp now ::
                    executeToolCalls proxy resp.toolCalls now)).rounds,
              outcome := (processRounds prov proxy kl now fuel
                  (history ++ assistantWithCalls resp now ::
                    executeToolCalls proxy resp.toolCalls now)).outcome,
              finalHistory := (processRounds prov proxy kl now fuel
                  (history ++ assistantWithCalls resp now ::
                    executeToolCalls proxy resp.toolCalls now)).finalHistory } := by
          simp only [processRounds, hprov, hempty]
          rfl
        have hno' : noOrphans (history ++ assistantWithCalls resp now ::
            executeToolCalls proxy resp.toolCalls now) = true := by
          have := noOrphans_append_round history resp proxy now
            (executeToolCalls proxy resp.toolCalls now).length hno
          rwa [List.take_length] at this
        have hnext := ih _ hno'
        rw [heq]
        refine ⟨fun k hk ck hkc => ?_, hnext.2⟩
        cases k with
        | zero => simp at hkc; rw [← hkc.1]; exact hno
        | succ k =>
          simp only [List.getElem?_cons_succ] at hkc
          exact hnext.1 k hk ck hkc

/-- C2: starting from a working history with no orphan tool results, every
history reachable mid-turn — the history at each round's start, each
intermediate state while a round's tool results are being appended one by
one after their assistant message, and the final history — satisfies the
no-orphans invariant: every tool-role message's tool_call_id matches a
ToolCall of an earlier assistant message of the same sequence. -/
theorem noOrphans_invariant (prov : ProviderFun) (proxy : ProxyFun)
    (mr kl now : Nat) (history : List Message) (hno : noOrphans history = true) :
    (∀ (k : Nat) (hk ck : List Message),
      (ProcessTurn prov proxy mr kl now history).rounds[k]? = some (hk, ck) →
      noOrphans hk = true) ∧
    (∀ (k : Nat) (hk ck : List Message) (resp : ChatResponse),
      (ProcessTurn prov proxy mr kl now history).rounds[k]? = some (hk, ck) →
      prov ck = .ok resp → resp.toolCalls ≠ [] →
      ∀ n, noOrphans (hk ++ assistantWithCalls resp now ::
        (executeToolCalls proxy resp.toolCalls now).take n) = true) ∧
    noOrphans (ProcessTurn prov proxy mr kl now history).finalHistory = true := by
  have h := @processRounds_noOrphans prov proxy (if kl = 0 then 10 else kl) now
    (if mr = 0 then 20 else mr) history hno
  refine ⟨h.1, ?_, h.2⟩
  intro k hk ck resp hkc _ _ n
  exact noOrphans_append_round hk resp proxy now n (h.1 k hk ck hkc)

/-- Witness for C2: the concrete two-round turn of the C1 witness keeps the
invariant at round 1's start and mid-append. -/
theorem noOrphans_invariant_witness :
    noOrphans [wUserMsg, assistantWithCalls wRespTools 0,
      buildToolMessage wProxyOk wToolCall 0] = true ∧
    noOrphans ([wUserMsg] ++ assistantWithCalls wRespTools 0 ::
      (executeToolCalls wProxyOk wRespTools.toolCalls 0).take 1) = true := by
  have h := noOrphans_invariant wProvOnce wProxyOk 3 10 0 [wUserMsg] (by decide)
  constructor
  · exact h.1 1
      [wUserMsg, assistantWithCalls wRespTools 0, buildToolMessage wProxyOk wToolCall 0]
      [wUserMsg, assistantWithCalls wRespTools 0, buildToolMessage wProxyOk wToolCall 0]
      (by decide)
  · exact h.2.1 0 [wUserMsg] [wUserMsg] wRespTools (by decide) rfl (by decide) 1

/-! # Autoplay: circuit breaker and first-message failure -/

theorem hasTripleFail_nil : hasTripleFail [] = false := rfl

theorem hasTripleFail_cons (b : Bool) (l : List Bool) :
    hasTripleFail (b :: l) =
      (decide ((b :: l).take 3 = [false, false, false]) || hasTripleFail l) := by
  rw [hasTripleFail, hasTripleFail, List.tails_cons, List.any_cons]

theorem hasTripleFail_of_take {l : List Bool}
    (h : l.take 3 = [false, false, false]) : hasTripleFail l = true := by
  cases l with
  | nil => simp at h
  | cons b rest =>
    rw [hasTripleFail_cons, h]
    simp

theorem take_replicate_false_mono {l : List Bool} {i j : Nat} (hij : i ≤ j)
    (h : l.take j = List.replicate j false) : l.take i = List.replicate i false := by
  have h2 : l.take i = (l.take j).take i := by
    rw [List.take_take, Nat.min_eq_left hij]
  rw [h2, h, List.take_replicate, Nat.min_eq_left hij]

theorem tickPhase_breaker_iff :
    ∀ (l : List Bool) (c : Nat), c < 3 →
      ((tickPhase c l).exit = .breaker ↔
        (l.take (3 - c) = List.replicate (3 - c) false ∨ hasTripleFail l = true)) := by
  intro l
  induction l with
  | nil =>
    intro c hc
    constructor
    · intro h
      simp [tickPhase] at h
    · intro h
      rcases h with h | h
      · rw [List.take_nil] at h
        cases h3 : 3 - c with
        | zero => omega
        | succ k =>
          rw [h3, List.replicate_succ] at h
          exact List.noConfusion h
      · rw [hasTripleFail_nil] at h
        exact Bool.noConfusion h
  | cons b rest ih =>
    intro c hc
    cases b with
    | true =>
      have heq : (tickPhase c (true :: rest)).exit = (tickPhase 0 rest).exit := by
        simp [tickPhase]
      rw [heq, ih 0 (by omega), hasTripleFail_cons]
      have h3 : (3 : Nat) - 0 = 3 := rfl
      rw [h3]
      constructor
      · intro h
        rcases h with h | h
        · exact Or.inr (by simp [hasTripleFail_of_take h])
        · exact Or.inr (by simp [h])
      · intro h
        rcases h with h | h
        · exfalso
          cases h3c : 3 - c with
          | zero => omega
          | succ k =>
            rw [h3c, List.replicate_succ, List.take_succ_cons] at h
            exact Bool.noConfusion (List.cons.inj h).1
        · simp only [Bool.or_eq_true, decide_eq_true_eq] at h
          rcases h with h | h
          · rw [List.take_succ_cons] at h
            exact absurd (List.cons.inj h).1 (by decide)
          · exact Or.inr h
    | false =>
      by_cases hc2 : c + 1 ≥ 3
      · have heq : (tickPhase c (false :: rest)).exit = .breaker := by
          simp [tickPhase, maxConsecutiveErrors, hc2]
        rw [heq]
        have hk : 3 - c = 1 := by omega
        rw [hk]
        exact iff_of_true rfl (Or.inl rfl)
      · have heq : (tickPhase c (false :: rest)).exit
            = (tickPhase (c + 1) rest).exit := by
          simp [tickPhase, maxConsecutiveErrors, hc2]
        rw [heq, ih (c + 1) (by omega), hasTripleFail_cons]
        have hk : 3 - c = (3 - (c + 1)) + 1 := by omega
        rw [hk, List.take_succ_cons, List.replicate_succ, List.take_succ_cons]
        constructor
        · intro h
          rcases h with h | h
          · exact Or.inl (by rw [h])
          · exact Or.inr (by simp [h])
        · intro h
          rcases h with h | h
          · exact Or.inl (List.cons.inj h).2
          · simp only [Bool.or_eq_true, decide_eq_true_eq] at h
            rcases h with h | h
            · have h2 : rest.take 2 = List.replicate 2 false := by
                have := (List.cons.inj h).2
                rw [this]
                rfl
              exact Or.inl (take_replicate_false_mono (by omega) h2)
            · exact Or.inr h

theorem tickPhase_keeps_ticking :
    ∀ (l : List Bool) (c : Nat), c < 3 → (tickPhase c l).exit ≠ .breaker →
      (tickPhase c l).invocations = l.length ∧
      ∃ k, k < 3 ∧ (tickPhase c l).exit = .running k := by
  intro l
  induction l with
  | nil =>
    intro c hc _
    exact ⟨rfl, c, hc, rfl⟩
  | cons b rest ih =>
    intro c hc hnb
    cases b with
    | true =>
      have heq : tickPhase c (true :: rest) =
          { invocations := (tickPhase 0 rest).invocations + 1,
            errors := (tickPhase 0 rest).errors,
            exit := (tickPhase 0 rest).exit } := by
        simp [tickPhase]
      rw [heq] at hnb ⊢
      obtain ⟨h1, k, hk, h2⟩ := ih 0 (by omega) (by simpa using hnb)
      exact ⟨by simpa using h1, k, hk, by simpa using h2⟩
    | false =>
      by_cases hc2 : c + 1 ≥ 3
      · exfalso
        apply hnb
        simp [tickPhase, maxConsecutiveErrors, hc2]
      · have heq : tickPhase c (false :: rest) =
            { invocations := (tickPhase (c + 1) rest).invocations + 1,
              errors := (tickPhase (c + 1) rest).errors + 1,
              exit := (tickPhase (c + 1) rest).exit } := by
          simp [tickPhase, maxConsecutiveErrors, hc2]
        rw [heq] at hnb ⊢
        obtain ⟨h1, k, hk, h2⟩ := ih (c + 1) (by omega) (by simpa using hnb)
        exact ⟨by simpa using h1, k, hk, by simpa using h2⟩

theorem tickPhase_errors_count :
    ∀ (l : List Bool) (c : Nat),
      (tickPhase c l).errors =
        (l.take (tickPhase c l).invocations).countP (fun b => !b) := by
  intro l
  induction l with
  | nil => intro c; rfl
  | cons b rest ih =>
    intro c
    cases b with
    | true =>
      have heq : tickPhase c (true :: rest) =
          { invocations := (tickPhase 0 rest).invocations + 1,
            errors := (tickPhase 0 rest).errors,
            exit := (tickPhase 0 rest).exit } := by
        simp [tickPhase]
      rw [heq]
      simp only [List.take_succ_cons, List.countP_cons]
      rw [ih 0]
      simp
    | false =>
      by_cases hc2 : c + 1 ≥ 3
      · have heq : tickPhase c (false :: rest) =
            { invocations := 1, errors := 1, exit := .breaker } := by
          simp [tickPhase, maxConsecutiveErrors, hc2]
        rw [heq]
        rfl
      · have heq : tickPhase c (false :: rest) =
            { invocations := (tickPhase (c + 1) rest).invocations + 1,
              errors := (tickPhase (c + 1) rest).errors + 1,
              exit := (tickPhase (c + 1) rest).exit } := by
          simp [tickPhase, maxConsecutiveErrors, hc2]
        rw [heq]
        simp only [List.take_succ_cons, List.countP_cons]
        rw [ih (c + 1)]
        simp

/-- Counterexample for C3 as stated: a failure of the very first immediate
message stops the supervising loop after a single failure — `runLoop`
exits with the counter at 1, below the threshold of 3, because the
first-message failure path returns unconditionally (autoplay.go lines
162-179). -/
theorem autoplay_circuit_counterexample :
    runLoop [false] =
      { invocations := 1, errors := 1, exit := .firstFailureStop } ∧
    1 < maxConsecutiveErrors := by
  constructor
  · rfl
  · decide

/-- C3 (amended): in the ticker phase each turn-callback failure fires
OnError (the error count equals the failures among the processed
outcomes), the loop self-stops through the circuit breaker exactly when 3
consecutive failures occur, and with no run of 3 consecutive failures it
keeps issuing ticks (processing every outcome, the counter below the
threshold); a successful first message enters the ticker phase — but a
failed first message stops the whole loop after that single failure. -/
theorem autoplay_circuit_breaker :
    (∀ l : List Bool,
      ((tickPhase 0 l).exit = .breaker ↔ hasTripleFail l = true)) ∧
    (∀ l : List Bool, hasTripleFail l = false →
      (tickPhase 0 l).invocations = l.length ∧
      ∃ k, k < maxConsecutiveErrors ∧ (tickPhase 0 l).exit = .running k) ∧
    (∀ (l : List Bool) (c : Nat),
      (tickPhase c l).errors =
        (l.take (tickPhase c l).invocations).countP (fun b => !b)) ∧
    (∀ rest : List Bool,
      runLoop (true :: rest) =
        { invocations := (tickPhase 0 rest).invocations + 1,
          errors := (tickPhase 0 rest).errors,
          exit := (tickPhase 0 rest).exit }) ∧
    (∀ rest : List Bool,
      runLoop (false :: rest) =
        { invocations := 1, errors := 1, exit := .firstFailureStop }) := by
  refine ⟨?_, ?_, ?_, ?_, ?_⟩
  · intro l
    have h := tickPhase_breaker_iff l 0 (by omega)
    rw [h]
    constructor
    · intro h2
      rcases h2 with h2 | h2
      · exact hasTripleFail_of_take h2
      · exact h2
    · intro h2
      exact Or.inr h2
  · intro l hl
    apply tickPhase_keeps_ticking l 0 (by omega)
    intro hb
    rcases (tickPhase_breaker_iff l 0 (by omega)).mp hb with h | h
    · exact absurd (hasTripleFail_of_take h) (by simp [hl])
    · exact absurd h (by simp [hl])
  · exact tickPhase_errors_count
  · intro rest
    rfl
  · intro rest
    rfl

/-- Witness for C3 (amended): the outcome run fail, success, fail has no
triple failure, so the ticker keeps running through all 3 ticks with 2
OnError calls; a failed first message stops immediately. -/
theorem autoplay_circuit_breaker_witness :
    ((tickPhase 0 [false, true, false]).invocations = 3 ∧
      ∃ k, k < maxConsecutiveErrors ∧
        (tickPhase 0 [false, true, false]).exit = .running k) ∧
    (tickPhase 0 [false, false, false]).exit = .breaker ∧
    runLoop [false, true, true] =
      { invocations := 1, errors := 1, exit := .firstFailureStop } := by
  refine ⟨autoplay_circuit_breaker.2.1 [false, true, false] (by decide), ?_, ?_⟩
  · exact (autoplay_circuit_breaker.1 [false, false, false]).mpr (by decide)
  · exact autoplay_circuit_breaker.2.2.2.2 [false, true, true]

end Mysis
